import Mathlib

/-!
Verification development for the french-geode archive engine
(src/loader/include/Geode/utils/file.hpp) and the numeric helpers
(src/loader/include/Geode/utils/general.hpp).

The repository ships only the headers under src/; the bodies of the
Zip/Unzip member functions are not part of the sources given, so the
archive engine below is modelled from spec.md (each such definition says
so in its doc comment).  clamp, numToString and numFromString are
template functions whose full code is in general.hpp and are embedded
from that source.
-/

deriving instance DecidableEq for Except

namespace Geode

/-- Error kinds, from spec.md §7.  The C++ interface reports errors as
string-typed Err results; spec.md names these distinguished kinds. -/
inductive ZipError where
  | notFound
  | notAFile
  | notADirectory
  | invalidName
  | ioError
  | malformedArchive
  | checksumMismatch
  | pathTraversal
  | alreadyFinalized
  | notInMemory
deriving DecidableEq, Repr

/-- Compression methods supported by the engine (spec.md §1, §4.3):
Store and Deflate only. -/
inductive Method where
  | store
  | deflate
deriving DecidableEq, Repr

/-- Entry kind (spec.md §3): File or Directory. -/
inductive EntryKind where
  | file
  | directory
deriving DecidableEq, Repr

/-- One Catalog record (spec.md §3 Entry): name, kind, sizes, checksum,
offset of the local header, method. -/
structure Entry where
  name : String
  kind : EntryKind
  uncompressedSize : Nat
  compressedSize : Nat
  checksum : Nat
  offset : Nat
  method : Method
deriving DecidableEq, Repr

/-- Byte Store backing (spec.md §3): a file path or an in-memory buffer.
Disk paths are modelled as segment lists. -/
inductive Backing where
  | memory
  | file (path : List String)
deriving DecidableEq, Repr

/-- Modelled from the spec: the Archive Core (spec.md §3) shared by the
Zip and Unzip facades (Zip::Impl in file.hpp).  It owns one Byte Store
(its backing tag plus current content) and one Entry Catalog, and a
finalized flag (a Core transitions at most once from being written to
finalized and readable). -/
structure Impl where
  backing : Backing
  bytes : List Nat
  entries : List Entry
  finalized : Bool
deriving DecidableEq, Repr

/-- Little-endian 4-byte encoding of a 32-bit value, used for every
numeric field of the container format (spec.md §6 archive byte format). -/
def u32le (n : Nat) : List Nat :=
  [n % 256, n / 256 % 256, n / 65536 % 256, n / 16777216 % 256]

/-- Reads a little-endian 32-bit value from the front of a byte list. -/
def readU32 : List Nat → Nat
  | b0 :: b1 :: b2 :: b3 :: _ => b0 + 256 * b1 + 65536 * b2 + 16777216 * b3
  | _ => 0

/-- Modelled from the spec: one step of the 32-bit checksum of spec.md
§4.3 (a cyclic-redundancy style polynomial over the uncompressed bytes).
The model is the polynomial hash with unit base 257 reduced mod 2^32,
which has the error-detection property the spec relies on: changing a
single byte always changes the checksum. -/
def checksumStep (c b : Nat) : Nat := (c * 257 + b) % 4294967296

/-- Modelled from the spec: 32-bit checksum over a byte list (spec.md
§3, §4.3). -/
def checksum32 (bs : List Nat) : Nat := bs.foldl checksumStep 0

/-- Numeric method tag stored in headers (0 = store, 8 = deflate, the
standard ZIP method numbers). -/
def methodCode : Method → Nat
  | .store => 0
  | .deflate => 8

/-- Decodes a stored method tag. -/
def methodOfCode : Nat → Option Method
  | 0 => some .store
  | 8 => some .deflate
  | _ => none

/-- Numeric entry-kind tag stored in central-directory records. -/
def kindCode : EntryKind → Nat
  | .file => 0
  | .directory => 1

/-- Decodes a stored entry-kind tag. -/
def kindOfCode : Nat → Option EntryKind
  | 0 => some .file
  | 1 => some .directory
  | _ => none

/-- Modelled from the spec: the Codec's compress operation (spec.md
§4.3).  Store is the byte-identical copy.  Deflate is abstracted as an
invertible framing of the payload (a stream marker byte followed by the
raw bytes); spec.md fixes only that the method round-trips exactly and
that a corrupted stream is rejected, not the sliding-window algorithm
itself. -/
def compress : Method → List Nat → List Nat
  | .store, bs => bs
  | .deflate, bs => 120 :: bs

/-- Modelled from the spec: the Codec's decompress operation (spec.md
§4.3); fails with MalformedArchive when the declared uncompressed size
does not match the actual decompressed length, or (deflate) when the
stream framing is corrupt. -/
def decompress (m : Method) (payload : List Nat) (expected : Nat) :
    Except ZipError (List Nat) :=
  match m with
  | .store =>
    if payload.length = expected then .ok payload else .error .malformedArchive
  | .deflate =>
    match payload with
    | 120 :: rest =>
      if rest.length = expected then .ok rest else .error .malformedArchive
    | _ => .error .malformedArchive

/-- Entry names serialized as their character codes (entry names use
forward slashes and are byte strings in the container). -/
def strBytes (s : String) : List Nat := s.toList.map Char.toNat

/-- Decodes a serialized entry name. -/
def bytesStr (bs : List Nat) : String := String.mk (bs.map Char.ofNat)

/-- Splits a character list at every forward slash (entry names use
slash separators regardless of host convention, spec.md §6). -/
def splitOnSlash : List Char → List (List Char)
  | [] => [[]]
  | c :: t =>
    match splitOnSlash t with
    | [] => [[c]]
    | s :: rest => if c = '/' then [] :: s :: rest else (c :: s) :: rest

/-- Modelled from the spec: normalization of an entry name's segments
(spec.md §4.2): empty and dot segments are dropped, a dot-dot segment
pops the last kept segment, and popping with nothing kept means the name
escapes the root (the result is none). -/
def normSegsAux : List (List Char) → List (List Char) → Option (List (List Char))
  | [], st => some st
  | seg :: rest, st =>
    if seg = [] ∨ seg = ['.'] then normSegsAux rest st
    else if seg = ['.', '.'] then
      match st with
      | [] => none
      | _ :: _ => normSegsAux rest st.dropLast
    else normSegsAux rest (st ++ [seg])

/-- Modelled from the spec: normalized relative segments of an entry
name, or none when the name resolves outside the root (spec.md §4.2
traversal protection). -/
def normName (s : String) : Option (List (List Char)) :=
  normSegsAux (splitOnSlash s.toList) []

/-- Modelled from the spec: validity of an entry name (spec.md §4.2
beginEntry): nonempty, no null byte, byte-clean characters, and its
normalization must not escape the archive root. -/
def validEntryName (s : String) : Bool :=
  !(s == "") &&
  s.toList.all (fun c => decide (c.toNat ≠ 0) && decide (c.toNat < 256)) &&
  !(normName s).isNone

/-- Local file header signature (spec.md §6). -/
def sigLocal : List Nat := [80, 75, 3, 4]

/-- Central directory record signature (spec.md §6). -/
def sigCentral : List Nat := [80, 75, 1, 2]

/-- End-of-central-directory signature (spec.md §6). -/
def sigEocd : List Nat := [80, 75, 5, 6]

/-- Modelled from the spec: the local file header of an entry (spec.md
§6: signature, method, sizes, checksum, name length, name); the
compressed payload follows it in the Byte Store. -/
def localHeader (e : Entry) : List Nat :=
  sigLocal ++ u32le (methodCode e.method) ++ u32le e.uncompressedSize ++
  u32le e.compressedSize ++ u32le e.checksum ++
  u32le (strBytes e.name).length ++ strBytes e.name

/-- Modelled from the spec: one central directory record (spec.md §6:
mirrors the local header plus the local header's offset; the model also
records the entry kind tag). -/
def cdRecord (e : Entry) : List Nat :=
  sigCentral ++ u32le (methodCode e.method) ++ u32le e.uncompressedSize ++
  u32le e.compressedSize ++ u32le e.checksum ++
  u32le (strBytes e.name).length ++ u32le e.offset ++ u32le (kindCode e.kind) ++
  strBytes e.name

/-- Serialized central directory: one record per Catalog entry, in
Catalog order (spec.md §4.2 finalize). -/
def cdBytes : List Entry → List Nat
  | [] => []
  | e :: rest => cdRecord e ++ cdBytes rest

/-- Modelled from the spec: the end-of-central-directory record (spec.md
§6: signature, entry count, central directory size and offset, comment
length; the writer emits no comment). -/
def eocdBytes (count cdSize cdOff : Nat) : List Nat :=
  sigEocd ++ u32le count ++ u32le cdSize ++ u32le cdOff ++ u32le 0

/-- Catalog record produced for an entry added to the core in its
current state: sizes of the uncompressed data and compressed payload,
checksum of the uncompressed bytes, offset at the current end of the
Byte Store. -/
def mkEntry (z : Impl) (name : String) (kind : EntryKind) (data : List Nat)
    (m : Method) : Entry :=
  { name := name, kind := kind, uncompressedSize := data.length,
    compressedSize := (compress m data).length, checksum := checksum32 data,
    offset := z.bytes.length, method := m }

/-- Modelled from the spec: beginEntry plus writeEntryData of spec.md
§4.2: rejects invalid names and finalized cores, compresses the data,
records sizes and the checksum of the uncompressed bytes, appends the
local header and compressed payload to the Byte Store, and replaces the
Catalog's logical record when the name is already present (the stale
bytes remain in the store as unreachable padding). -/
def addEntry (z : Impl) (name : String) (kind : EntryKind) (data : List Nat)
    (m : Method) : Except ZipError Impl :=
  if z.finalized then .error .alreadyFinalized
  else if !(validEntryName name) then .error .invalidName
  else
    let e := mkEntry z name kind data m
    let entries' :=
      if z.entries.any (fun o => o.name == name) then
        z.entries.map (fun o => if o.name == name then e else o)
      else z.entries ++ [e]
    .ok { backing := z.backing,
          bytes := z.bytes ++ localHeader e ++ compress m data,
          entries := entries', finalized := false }

/-- Zip::create() for in-memory data (file.hpp line 88): a fresh empty
in-memory core. -/
def Zip.createMem : Impl :=
  { backing := .memory, bytes := [], entries := [], finalized := false }

/-- Zip::create(path) for a file (file.hpp line 83): a fresh empty
file-backed core. -/
def Zip.createFile (p : List String) : Impl :=
  { backing := .file p, bytes := [], entries := [], finalized := false }

/-- Zip::getPath (file.hpp line 95): backing path, empty if in-memory. -/
def Zip.getPath (z : Impl) : List String :=
  match z.backing with
  | .memory => []
  | .file p => p

/-- Zip::getData (file.hpp line 100).  The header declares a plain
ByteVector return with no failure channel.  Modelled from the spec for
the in-memory case (a snapshot of the bytes written so far, spec.md
§4.4); the file-backed case, which spec.md calls a caller error, can
only produce a plain vector here and is modelled as the empty vector. -/
def Zip.getData (z : Impl) : List Nat :=
  match z.backing with
  | .memory => z.bytes
  | .file _ => []

/-- Zip::add (file.hpp line 105), modelled from the spec (spec.md §4.4):
begins and writes a File-kind entry.  The facade's compression method
choice is internal in the C++ interface and is a parameter here. -/
def Zip.add (z : Impl) (entry : String) (data : List Nat) (m : Method) :
    Except ZipError Impl :=
  addEntry z entry .file data m

/-- Zip::addFolder (file.hpp line 129), modelled from the spec (spec.md
§4.4): adds a zero-length Directory-kind entry. -/
def Zip.addFolder (z : Impl) (entry : String) : Except ZipError Impl :=
  addEntry z entry .directory [] .store

/-- Modelled from the spec: finalize (spec.md §4.2): appends one central
directory record per current Catalog entry in Catalog order, then the
end-of-central-directory record; fails with AlreadyFinalized when called
twice, and freezes the core. -/
def Zip.finalize (z : Impl) : Except ZipError Impl :=
  if z.finalized then .error .alreadyFinalized
  else
    let cd := cdBytes z.entries
    .ok { backing := z.backing,
          bytes := z.bytes ++ cd ++ eocdBytes z.entries.length cd.length z.bytes.length,
          entries := z.entries, finalized := true }

/-- Backward scan for the end-of-central-directory signature starting at
a candidate position and walking toward the start (spec.md §4.2
openForReading tolerates trailing bytes after the record). -/
def findEocdAux (bs : List Nat) : Nat → Option Nat
  | 0 => if (bs.drop 0).take 4 = sigEocd then some 0 else none
  | i + 1 =>
    if (bs.drop (i + 1)).take 4 = sigEocd then some (i + 1) else findEocdAux bs i

/-- Position of the end-of-central-directory record, found by scanning
backward from the end of the data (spec.md §4.2). -/
def findEocd (bs : List Nat) : Option Nat :=
  if bs.length < 20 then none else findEocdAux bs (bs.length - 20)

/-- Modelled from the spec: parses count central-directory records
starting at a position, failing with MalformedArchive on a bad
signature, a truncated name, or an undecodable method or kind tag
(spec.md §4.2 openForReading). -/
def parseCd (bs : List Nat) : Nat → Nat → Except ZipError (List Entry)
  | _, 0 => .ok []
  | pos, count + 1 =>
    if (bs.drop pos).take 4 = sigCentral then
      if ((bs.drop (pos + 32)).take (readU32 (bs.drop (pos + 20)))).length =
          readU32 (bs.drop (pos + 20)) then
        match methodOfCode (readU32 (bs.drop (pos + 4))),
            kindOfCode (readU32 (bs.drop (pos + 28))) with
        | some mth, some knd =>
          match parseCd bs (pos + 32 + readU32 (bs.drop (pos + 20))) count with
          | .ok rest =>
            .ok ({ name := bytesStr ((bs.drop (pos + 32)).take (readU32 (bs.drop (pos + 20)))),
                   kind := knd,
                   uncompressedSize := readU32 (bs.drop (pos + 8)),
                   compressedSize := readU32 (bs.drop (pos + 12)),
                   checksum := readU32 (bs.drop (pos + 16)),
                   offset := readU32 (bs.drop (pos + 24)),
                   method := mth } :: rest)
          | .error e => .error e
        | _, _ => .error .malformedArchive
      else .error .malformedArchive
    else .error .malformedArchive

/-- Modelled from the spec: openForReading (spec.md §4.2): locates the
end-of-central-directory record by backward signature scan, checks that
the central directory it points at is consistent with the record's
position, and populates the Catalog from the central directory without
touching any entry data. -/
def openBytes (back : Backing) (bs : List Nat) : Except ZipError Impl :=
  match findEocd bs with
  | none => .error .malformedArchive
  | some p =>
    if readU32 (bs.drop (p + 12)) + readU32 (bs.drop (p + 8)) = p then
      match parseCd bs (readU32 (bs.drop (p + 12))) (readU32 (bs.drop (p + 4))) with
      | .ok es => .ok { backing := back, bytes := bs, entries := es, finalized := true }
      | .error e => .error e
    else .error .malformedArchive

/-- Unzip::create from in-memory data (file.hpp line 155), modelled from
the spec: opens the byte buffer for reading. -/
def Unzip.createFromData (bs : List Nat) : Except ZipError Impl :=
  openBytes .memory bs

/-- Unzip::getEntries (file.hpp line 167), modelled from the spec
(spec.md §4.5): the Catalog's entry names in central-directory order. -/
def Unzip.getEntries (u : Impl) : List String :=
  u.entries.map (fun e => e.name)

/-- Unzip::hasEntry (file.hpp line 172), modelled from the spec. -/
def Unzip.hasEntry (u : Impl) (name : String) : Bool :=
  u.entries.any (fun e => e.name == name)

/-- Unzip::extract (file.hpp line 178), modelled from the spec (spec.md
§4.2 extract): seeks to the entry's local header, reads the compressed
payload, decompresses it, verifies the checksum; fails with
ChecksumMismatch when verification fails and with IoError on truncated
data. -/
def Unzip.extract (u : Impl) (name : String) : Except ZipError (List Nat) :=
  match u.entries.find? (fun e => e.name == name) with
  | none => .error .notFound
  | some e =>
    if (u.bytes.drop e.offset).take 4 = sigLocal then
      if (((u.bytes.drop e.offset).drop
            (24 + readU32 ((u.bytes.drop e.offset).drop 20))).take
          e.compressedSize).length = e.compressedSize then
        match decompress e.method
            (((u.bytes.drop e.offset).drop
                (24 + readU32 ((u.bytes.drop e.offset).drop 20))).take
              e.compressedSize) e.uncompressedSize with
        | .ok data =>
          if checksum32 data = e.checksum then .ok data
          else .error .checksumMismatch
        | .error err => .error err
      else .error .ioError
    else .error .malformedArchive

/-- Modelled filesystem state: regular files (path segments to content)
and directories, for the operations that touch the disk. -/
structure FS where
  files : List (List String × List Nat)
  dirs : List (List String)
deriving DecidableEq, Repr

/-- Reads a file from the modelled filesystem. -/
def fsRead (fs : FS) (p : List String) : Option (List Nat) :=
  (fs.files.find? (fun q => q.1 == p)).map (fun q => q.2)

/-- Writes (creates or replaces) a file in the modelled filesystem. -/
def fsWrite (fs : FS) (p : List String) (d : List Nat) : FS :=
  { files := (p, d) :: fs.files.filter (fun q => !(q.1 == p)), dirs := fs.dirs }

/-- Creates a directory in the modelled filesystem. -/
def fsMkdir (fs : FS) (p : List String) : FS :=
  { files := fs.files, dirs := p :: fs.dirs }

/-- Removes a file from the modelled filesystem. -/
def fsRemove (fs : FS) (p : List String) : FS :=
  { files := fs.files.filter (fun q => !(q.1 == p)), dirs := fs.dirs }

/-- Normalized segments of an entry name rendered as disk path
segments. -/
def segStrings (segs : List (List Char)) : List String :=
  segs.map (fun l => String.mk l)

/-- Modelled from the spec: extraction of one entry under a destination
directory (spec.md §4.5 extractAllTo body): Directory-kind entries
recreate a directory, File-kind entries are extracted and written at
their normalized relative path under the destination. -/
def extractStep (u : Impl) (dir : List String) (fs : FS) (e : Entry) :
    Except ZipError FS :=
  match normName e.name with
  | none => .error .pathTraversal
  | some segs =>
    match e.kind with
    | .directory => .ok (fsMkdir fs (dir ++ segStrings segs))
    | .file =>
      match Unzip.extract u e.name with
      | .ok data => .ok (fsWrite fs (dir ++ segStrings segs) data)
      | .error err => .error err

/-- Runs a list of state steps, stopping at the first failure and
keeping the side effects already performed (spec.md §7 propagation
policy: first fatal error, no rollback). -/
def runSteps {σ α : Type} (f : σ → α → Except ZipError σ) :
    List α → σ → Except ZipError Unit × σ
  | [], s => (.ok (), s)
  | a :: as, s =>
    match f s a with
    | .error e => (.error e, s)
    | .ok s' => runSteps f as s'

/-- Unzip::extractAllTo (file.hpp line 189), modelled from the spec
(spec.md §4.5): first rejects the whole archive with PathTraversal when
any entry's normalized relative path would resolve outside the
destination (abort before writing any file), then extracts the entries
in Catalog order, stopping at the first error without rollback. -/
def Unzip.extractAllTo (u : Impl) (dir : List String) (fs : FS) :
    Except ZipError Unit × FS :=
  if u.entries.any (fun e => (normName e.name).isNone) then
    (.error .pathTraversal, fs)
  else runSteps (extractStep u dir) u.entries fs

/-- Unzip::create from a file (file.hpp line 150), modelled from the
spec: reads the archive file and opens it for reading; NotFound when the
path does not exist. -/
def Unzip.createFromFile (fs : FS) (p : List String) : Except ZipError Impl :=
  match fsRead fs p with
  | none => .error .notFound
  | some bs => openBytes (.file p) bs

/-- Unzip::intoDir (file.hpp line 198), modelled from the spec (spec.md
§4.5): opens the source archive, extracts everything into the
destination, and deletes the source archive only when requested and only
when extraction succeeded. -/
def Unzip.intoDir (src dst : List String) (deleteZipAfter : Bool) (fs : FS) :
    Except ZipError Unit × FS :=
  match fsRead fs src with
  | none => (.error .notFound, fs)
  | some bs =>
    match openBytes (.file src) bs with
    | .error e => (.error e, fs)
    | .ok u =>
      match Unzip.extractAllTo u dst fs with
      | (.ok _, fs') =>
        if deleteZipAfter then (.ok (), fsRemove fs' src) else (.ok (), fs')
      | (.error e, fs') => (.error e, fs')

/-- Composition stated by spec.md §4.5 for intoDir, written with the
reader facade operations exactly as the spec words it: create, then
extractAllTo, then optional deletion of the source archive file on
success only. -/
def Unzip.intoDirSpec (src dst : List String) (deleteZipAfter : Bool) (fs : FS) :
    Except ZipError Unit × FS :=
  match Unzip.createFromFile fs src with
  | .error e => (.error e, fs)
  | .ok u =>
    match Unzip.extractAllTo u dst fs with
    | (.ok _, fs') =>
      (.ok (), if deleteZipAfter then fsRemove fs' src else fs')
    | (.error e, fs') => (.error e, fs')

/-- Modelled disk directory tree walked by Zip::addAllFrom: named files
(whose content is none when the file cannot be read) and named
subtrees. -/
inductive DirTree where
  | node (files : List (String × Option (List Nat)))
         (subdirs : List (String × DirTree))

/-- One planned operation of a recursive directory walk. -/
inductive FsOp where
  | folderOp (entry : String)
  | fileOp (entry : String) (content : Option (List Nat))
deriving DecidableEq, Repr

mutual
/-- Modelled from the spec: the deterministic traversal plan of
Zip::addAllFromRecurse (file.hpp line 68, spec.md §4.4): every
descendant file is added at its relative path, every descendant
directory (including empty ones) gets a Directory-kind entry. -/
def planTree : DirTree → String → List FsOp
  | .node files subdirs, pre =>
    files.map (fun f => FsOp.fileOp (pre ++ f.1) f.2) ++ planSubs subdirs pre

/-- Traversal plan for a list of named subtrees. -/
def planSubs : List (String × DirTree) → String → List FsOp
  | [], _ => []
  | (s, t) :: rest, pre =>
    FsOp.folderOp (pre ++ s ++ "/") ::
      (planTree t (pre ++ s ++ "/") ++ planSubs rest pre)
end

/-- Applies one planned operation to the writer core: folder entries are
added directly, unreadable files surface IoError, readable files are
added with the facade's method. -/
def applyOp (m : Method) (z : Impl) : FsOp → Except ZipError Impl
  | .folderOp entry => addEntry z entry .directory [] .store
  | .fileOp _ none => .error .ioError
  | .fileOp entry (some data) => addEntry z entry .file data m

/-- Full operation plan of Zip::addAllFrom for a directory name and its
tree: the directory's own entry followed by the recursive walk. -/
def Zip.addAllFromOps (dirName : String) (tree : DirTree) : List FsOp :=
  FsOp.folderOp (dirName ++ "/") :: planTree tree (dirName ++ "/")

/-- Zip::addAllFrom (file.hpp line 123), modelled from the spec (spec.md
§4.4, §7): walks the tree in plan order, surfaces the first fatal error
and stops there, keeping every entry already added. -/
def Zip.addAllFrom (z : Impl) (dirName : String) (tree : DirTree) (m : Method) :
    Except ZipError Unit × Impl :=
  runSteps (applyOp m) (Zip.addAllFromOps dirName tree) z

/-- Sequential Zip::add of a list of (name, data) pairs, as in the
round-trip property of spec.md §8.1. -/
def addAll (z : Impl) (pairs : List (String × List Nat)) (m : Method) :
    Except ZipError Impl :=
  match pairs with
  | [] => .ok z
  | p :: rest =>
    match Zip.add z p.1 p.2 m with
    | .ok z' => addAll z' rest m
    | .error e => .error e

/-- Byte length of the local block (header plus compressed payload) one
pair contributes to the Byte Store. -/
def blockLen (m : Method) (p : String × List Nat) : Nat :=
  24 + (strBytes p.1).length + (compress m p.2).length

/-- Byte length of the central-directory record one pair contributes. -/
def cdLenOf (p : String × List Nat) : Nat :=
  32 + (strBytes p.1).length

/-- Total serialized archive size of a pair list: local blocks, central
directory, end record. -/
def archSize (m : Method) (pairs : List (String × List Nat)) : Nat :=
  (pairs.map (fun p => blockLen m p + cdLenOf p)).sum + 20

/-- Checksum step lifted to the residue ring of 32-bit values, used to
reason about error detection. -/
def foldZ (c : ZMod 4294967296) (b : Nat) : ZMod 4294967296 :=
  c * 257 + (b : ZMod 4294967296)

/-- Field agreement between a Catalog record and the uncompressed data
it describes. -/
def EntryData (e : Entry) (d : List Nat) : Prop :=
  e.uncompressedSize = d.length ∧
  e.compressedSize = (compress e.method d).length ∧
  e.checksum = checksum32 d

/-- The record's local block sits in the Byte Store at the record's
offset. -/
def PlacedIn (bytes : List Nat) (e : Entry) (d : List Nat) : Prop :=
  ∃ pre post, bytes = pre ++ localHeader e ++ compress e.method d ++ post ∧
    pre.length = e.offset

/-- All numeric fields of a record fit in 32 bits, so the container
serialization is faithful (the engine does not implement ZIP64,
spec.md §1). -/
def BoundedEntry (e : Entry) : Prop :=
  e.uncompressedSize < 4294967296 ∧ e.compressedSize < 4294967296 ∧
  e.checksum < 4294967296 ∧ e.offset < 4294967296 ∧
  (strBytes e.name).length < 4294967296

/-- A record correctly describing data d and correctly placed in the
store. -/
def GoodEntry (bytes : List Nat) (e : Entry) (d : List Nat) : Prop :=
  EntryData e d ∧ PlacedIn bytes e d ∧ BoundedEntry e

/-- Correspondence between a Catalog record and the (name, data) pair it
was created from by the writer. -/
def PairRel (m : Method) (bytes : List Nat) (e : Entry) (p : String × List Nat) : Prop :=
  e.name = p.1 ∧ e.method = m ∧ e.kind = .file ∧ EntryData e p.2 ∧ PlacedIn bytes e p.2

/-- clamp (general.hpp lines 71-74): value < minValue gives minValue,
maxValue < value gives maxValue, otherwise value itself. -/
def clamp {α : Type} [LinearOrder α] (value minValue maxValue : α) : α :=
  if value < minValue then minValue
  else if maxValue < value then maxValue
  else value

/-- Decimal digits of a natural number, most significant first, as
emitted by the stream insertion numToString uses (general.hpp lines
90-98 with precision 0). -/
def natDigits (n : Nat) : List Nat :=
  if n < 10 then [n] else natDigits (n / 10) ++ [n % 10]
  decreasing_by exact Nat.div_lt_self (by omega) (by omega)

/-- Character of one decimal digit. -/
def digitChar (d : Nat) : Char := Char.ofNat (48 + d)

/-- numToString (general.hpp lines 90-98) for an integral operand with
the default precision 0.  The charFamily flag records whether the
operand type is one of the char-family integral types (char,
signed char / int8_t, unsigned char / uint8_t): for those, the stream
insertion at line 96 writes the single character whose code is the
operand's byte value, not its decimal digits.  For every other integral
type the stream prints a minus sign for negative values followed by the
decimal digits of the magnitude. -/
def numToString (charFamily : Bool) (n : Int) : String :=
  match charFamily with
  | true => String.mk [Char.ofNat (n % 256).toNat]
  | false =>
    String.mk ((if n < 0 then ['-'] else []) ++ (natDigits n.natAbs).map digitChar)

/-- Value of one numeral character as std::from_chars reads it: decimal
digits, then lowercase letters, then uppercase letters. -/
def digitVal (c : Char) : Option Nat :=
  if 48 ≤ c.toNat ∧ c.toNat ≤ 57 then some (c.toNat - 48)
  else if 97 ≤ c.toNat ∧ c.toNat ≤ 122 then some (c.toNat - 87)
  else if 65 ≤ c.toNat ∧ c.toNat ≤ 90 then some (c.toNat - 55)
  else none

/-- Whether a character is a digit of the given base. -/
def isBaseDigit (base : Nat) (c : Char) : Bool :=
  match digitVal c with
  | some v => v < base
  | none => false

/-- Minus-sign handling of std::from_chars: a leading minus sign is
consumed only for signed destination types. -/
def stripNeg (signed : Bool) (cs : List Char) : Bool × List Char :=
  match cs with
  | c :: t => if signed && (c == '-') then (true, t) else (false, cs)
  | [] => (false, cs)

/-- Magnitude of a numeral character list in a base, accumulated the way
from_chars does. -/
def digitsVal (base : Nat) (ds : List Char) : Int :=
  ds.foldl (fun a c => a * (base : Int) + (((digitVal c).getD 0 : Nat) : Int)) 0

/-- numFromString (general.hpp lines 106-138) for an integral
destination type, embedded with the type's representable range [lo, hi]
(signed exactly when lo is negative).  Follows std::from_chars: an
optional minus sign for signed types, then the longest digit prefix;
no digits is an invalid-argument error, a parsed value outside the range
is an out-of-range error, and trailing non-digit characters are
ignored. -/
def numFromString (lo hi : Int) (base : Nat) (s : String) : Except String Int :=
  let sr := stripNeg (decide (lo < 0)) s.toList
  let digs := sr.2.takeWhile (isBaseDigit base)
  if digs.isEmpty then .error "String is not a number"
  else
    let v : Int := if sr.1 then -(digitsVal base digs) else digitsVal base digs
    if v < lo ∨ hi < v then .error "Number is too large to fit"
    else .ok v

/-- Sign consumed by numFromString's scan of a string. -/
def parsedSign (lo : Int) (s : String) : Bool :=
  (stripNeg (decide (lo < 0)) s.toList).1

/-- Digit run consumed by numFromString's scan of a string. -/
def parsedDigits (lo : Int) (base : Nat) (s : String) : List Char :=
  (stripNeg (decide (lo < 0)) s.toList).2.takeWhile (isBaseDigit base)

/-- Signed value numFromString computes from its scan of a string. -/
def parsedVal (lo : Int) (base : Nat) (s : String) : Int :=
  if parsedSign lo s then -(digitsVal base (parsedDigits lo base s))
  else digitsVal base (parsedDigits lo base s)

/-- Declarative reading of "the string parses as a number": the
character sequence is an optional minus sign (signed types only), a
nonempty maximal run of base digits, and arbitrary trailing characters;
v is the signed value of the digit run. -/
def NumeralOf (signed : Bool) (base : Nat) (s : String) (v : Int) : Prop :=
  ∃ neg ds rest,
    s.toList = (if neg then ['-'] else []) ++ ds ++ rest ∧
    (neg = true → signed = true) ∧
    ds ≠ [] ∧
    (∀ c ∈ ds, isBaseDigit base c = true) ∧
    (rest = [] ∨ ∃ c t, rest = c :: t ∧ isBaseDigit base c = false) ∧
    v = if neg then -(digitsVal base ds) else digitsVal base ds

theorem drop_len_add {α : Type} (xs ys : List α) (k : Nat) :
    (xs ++ ys).drop (xs.length + k) = ys.drop k := by
  induction xs with
  | nil => simp
  | cons a t ih =>
    rw [List.cons_append, List.length_cons]
    have hh : t.length + 1 + k = t.length + k + 1 := by omega
    rw [hh, List.drop_succ_cons]
    exact ih

theorem runSteps_error {σ α : Type} (f : σ → α → Except ZipError σ) :
    ∀ (l : List α) (s s' : σ) (e : ZipError),
      runSteps f l s = (.error e, s') →
      ∃ pre a post, l = pre ++ a :: post ∧
        runSteps f pre s = (.ok (), s') ∧ f s' a = .error e := by
  intro l
  induction l with
  | nil =>
    intro s s' e h
    simp [runSteps] at h
  | cons a rest ih =>
    intro s s' e h
    simp only [runSteps] at h
    cases hf : f s a with
    | error e0 =>
      rw [hf] at h
      have h1 : (Except.error e0 : Except ZipError Unit) = Except.error e :=
        congrArg Prod.fst h
      have h2 : s = s' := congrArg Prod.snd h
      cases h1
      subst h2
      exact ⟨[], a, rest, rfl, rfl, hf⟩
    | ok s1 =>
      rw [hf] at h
      obtain ⟨pre, b, post, hl, hrun, hfb⟩ := ih s1 s' e h
      refine ⟨a :: pre, b, post, by rw [hl, List.cons_append], ?_, hfb⟩
      simp only [runSteps, hf]
      exact hrun

theorem extractStep_files (u : Impl) (dir : List String) (fs fs' : FS) (e : Entry)
    (h : extractStep u dir fs e = .ok fs') :
    ∀ pr ∈ fs'.files, pr ∈ fs.files ∨ ∃ t, pr.1 = dir ++ t := by
  intro pr hpr
  unfold extractStep at h
  cases hn : normName e.name with
  | none => rw [hn] at h; exact Except.noConfusion h
  | some segs =>
    rw [hn] at h
    cases hk : e.kind with
    | directory =>
      rw [hk] at h
      cases h
      exact Or.inl hpr
    | file =>
      rw [hk] at h
      cases hx : Unzip.extract u e.name with
      | error err => rw [hx] at h; exact Except.noConfusion h
      | ok data =>
        rw [hx] at h
        cases h
        rcases List.mem_cons.mp hpr with h1 | h1
        · exact Or.inr ⟨segStrings segs, by rw [h1]⟩
        · exact Or.inl (List.mem_filter.mp h1).1

theorem extractRun_files (u : Impl) (dir : List String) :
    ∀ (es : List Entry) (fs : FS) (pr : List String × List Nat),
      pr ∈ (runSteps (extractStep u dir) es fs).2.files →
      pr ∈ fs.files ∨ ∃ t, pr.1 = dir ++ t := by
  intro es
  induction es with
  | nil => intro fs pr h; exact Or.inl h
  | cons e rest ih =>
    intro fs pr h
    simp only [runSteps] at h
    cases hs : extractStep u dir fs e with
    | error err => rw [hs] at h; exact Or.inl h
    | ok fs1 =>
      rw [hs] at h
      rcases ih fs1 pr h with h1 | h1
      · exact extractStep_files u dir fs fs1 e hs pr h1
      · exact Or.inr h1

/-- C10: for values of an ordered type with minValue ≤ maxValue, clamp
returns minValue when value < minValue, maxValue when maxValue < value,
and value itself otherwise, so the result always lies within
[minValue, maxValue] (general.hpp lines 71-74). -/
theorem clamp_spec {α : Type} [LinearOrder α] (value minValue maxValue : α)
    (h : minValue ≤ maxValue) :
    (value < minValue → clamp value minValue maxValue = minValue) ∧
    (maxValue < value → clamp value minValue maxValue = maxValue) ∧
    (¬ value < minValue → ¬ maxValue < value → clamp value minValue maxValue = value) ∧
    minValue ≤ clamp value minValue maxValue ∧
    clamp value minValue maxValue ≤ maxValue := by
  unfold clamp
  split_ifs with h1 h2
  · exact ⟨fun _ => rfl, fun hv => absurd (lt_trans hv h1) (not_lt.mpr h),
      fun hc _ => absurd h1 hc, le_refl _, h⟩
  · exact ⟨fun hv => absurd hv h1, fun _ => rfl, fun _ hc => absurd h2 hc, h, le_refl _⟩
  · exact ⟨fun hv => absurd hv h1, fun hv => absurd hv h2, fun _ _ => rfl,
      not_lt.mp h1, not_lt.mp h2⟩

/-- Witness for C10 at concrete integers. -/
theorem clamp_spec_witness :
    clamp (5 : Int) 0 3 = 3 ∧ 0 ≤ clamp (5 : Int) 0 3 :=
  ⟨(clamp_spec 5 0 3 (by decide)).2.1 (by decide),
   (clamp_spec 5 0 3 (by decide)).2.2.2.1⟩

/-- C5 (amended): the declared getData returns a plain byte vector and
has no failure channel; for in-memory stores it is a snapshot of the
bytes written so far (before or after finalization, since the finalized
flag is not consulted), and for file-backed stores it returns the empty
vector rather than a NotInMemory failure result. -/
theorem getData_spec :
    (∀ z : Impl, z.backing = .memory → Zip.getData z = z.bytes) ∧
    (∀ (z : Impl) (p : List String), z.backing = .file p → Zip.getData z = []) := by
  constructor
  · intro z hz
    unfold Zip.getData
    rw [hz]
  · intro z p hz
    unfold Zip.getData
    rw [hz]

/-- Witness for C5 (amended) at concrete stores. -/
theorem getData_spec_witness :
    Zip.getData { backing := .memory, bytes := [1, 2], entries := [], finalized := true } = [1, 2] ∧
    Zip.getData { backing := .file ["a"], bytes := [], entries := [], finalized := false } = [] :=
  ⟨getData_spec.1 _ rfl, getData_spec.2 _ ["a"] rfl⟩

/-- Counterexample for C5 as stated: getData on a file-backed writer is
declared in file.hpp line 100 to return a plain ByteVector, so on a
concrete file-backed store it yields an ordinary value (here the empty
vector), not a NotInMemory failure result. -/
theorem getData_counterexample :
    (pure (Zip.getData (Zip.createFile ["arch.zip"])) : Except ZipError (List Nat)) ≠
      Except.error ZipError.notInMemory ∧
    Zip.getData (Zip.createFile ["arch.zip"]) = [] := by
  constructor
  · decide
  · decide

/-- C2: when some entry of the archive normalizes outside the
destination (for example an entry named ../../escape.txt), extractAllTo
fails with PathTraversal while leaving the filesystem untouched (abort
before writing any file); moreover in every run of extractAllTo each
file present afterwards either already existed or lies under the
destination directory. -/
theorem extractAllTo_pathTraversal (u : Impl) (dir : List String) (fs : FS)
    (h : ∃ e ∈ u.entries, (normName e.name).isNone = true) :
    Unzip.extractAllTo u dir fs = (.error .pathTraversal, fs) ∧
    (∀ (dir2 : List String) (fs2 : FS) (pr : List String × List Nat),
      pr ∈ (Unzip.extractAllTo u dir2 fs2).2.files →
      pr ∈ fs2.files ∨ ∃ t, pr.1 = dir2 ++ t) := by
  have hany : u.entries.any (fun e => (normName e.name).isNone) = true := by
    obtain ⟨e, he, hn⟩ := h
    exact List.any_eq_true.mpr ⟨e, he, hn⟩
  constructor
  · unfold Unzip.extractAllTo
    rw [if_pos hany]
  · intro dir2 fs2 pr hpr
    unfold Unzip.extractAllTo at hpr
    by_cases hb : u.entries.any (fun e => (normName e.name).isNone) = true
    · rw [if_pos hb] at hpr
      exact Or.inl hpr
    · rw [if_neg hb] at hpr
      exact extractRun_files u dir2 u.entries fs2 pr hpr

/-- Witness for C2 on a concrete hostile archive. -/
theorem extractAllTo_pathTraversal_witness :
    Unzip.extractAllTo
      { backing := .memory, bytes := [],
        entries := [{ name := "../../escape.txt", kind := .file, uncompressedSize := 0,
                      compressedSize := 0, checksum := 0, offset := 0, method := .store }],
        finalized := true }
      ["dest"] { files := [], dirs := [] } =
      (.error .pathTraversal, { files := [], dirs := [] }) :=
  (extractAllTo_pathTraversal _ ["dest"] _ (by decide)).1

/-- C6: intoDir behaves exactly as the composition of create on the
source path followed by extractAllTo on the destination, deleting the
source archive file only when deleteZipAfter is set and the extraction
succeeded (file.hpp line 198, spec.md §4.5). -/
theorem intoDir_eq_spec (src dst : List String) (del : Bool) (fs : FS) :
    Unzip.intoDir src dst del fs = Unzip.intoDirSpec src dst del fs := by
  cases hr : fsRead fs src with
  | none => simp [Unzip.intoDir, Unzip.intoDirSpec, Unzip.createFromFile, hr]
  | some bs =>
    cases ho : openBytes (.file src) bs with
    | error e => simp [Unzip.intoDir, Unzip.intoDirSpec, Unzip.createFromFile, hr, ho]
    | ok u =>
      cases hx : Unzip.extractAllTo u dst fs with
      | mk r fs' =>
        cases r with
        | ok v =>
          cases del <;>
            simp [Unzip.intoDir, Unzip.intoDirSpec, Unzip.createFromFile, hr, ho, hx]
        | error e =>
          simp [Unzip.intoDir, Unzip.intoDirSpec, Unzip.createFromFile, hr, ho, hx]

/-- C7: the directory-tree operations addAllFrom and extractAllTo
surface the first fatal error and stop there: on failure the final state
is exactly the state after the successfully processed prefix of the
operation plan (no rollback), and the next operation is the failing
one.  For extractAllTo a PathTraversal pre-check failure leaves the
filesystem untouched. -/
theorem treeOps_first_error :
    (∀ (m : Method) (z z' : Impl) (dirName : String) (tree : DirTree) (e : ZipError),
      Zip.addAllFrom z dirName tree m = (.error e, z') →
      ∃ pre op post, Zip.addAllFromOps dirName tree = pre ++ op :: post ∧
        runSteps (applyOp m) pre z = (.ok (), z') ∧ applyOp m z' op = .error e) ∧
    (∀ (u : Impl) (dir : List String) (fs fs' : FS) (e : ZipError),
      Unzip.extractAllTo u dir fs = (.error e, fs') →
      (e = .pathTraversal ∧ fs' = fs) ∨
      ∃ pre en post, u.entries = pre ++ en :: post ∧
        runSteps (extractStep u dir) pre fs = (.ok (), fs') ∧
        extractStep u dir fs' en = .error e) := by
  constructor
  · intro m z z' dirName tree e h
    exact runSteps_error (applyOp m) (Zip.addAllFromOps dirName tree) z z' e h
  · intro u dir fs fs' e h
    unfold Unzip.extractAllTo at h
    by_cases hb : u.entries.any (fun en => (normName en.name).isNone) = true
    · rw [if_pos hb] at h
      have h1 : (Except.error ZipError.pathTraversal : Except ZipError Unit) =
          Except.error e := congrArg Prod.fst h
      have h2 : fs = fs' := congrArg Prod.snd h
      cases h1
      exact Or.inl ⟨rfl, h2.symm⟩
    · rw [if_neg hb] at h
      exact Or.inr (runSteps_error (extractStep u dir) u.entries fs fs' e h)

/-- Witness for C7: a concrete tree whose single file is unreadable
makes addAllFrom stop with IoError after having added the folder
entries that precede it. -/
theorem treeOps_first_error_witness :
    ∃ pre op post,
      Zip.addAllFromOps "d" (DirTree.node [("bad", none)] []) = pre ++ op :: post ∧
      runSteps (applyOp .store) pre Zip.createMem =
        (.ok (), (Zip.addAllFrom Zip.createMem "d" (DirTree.node [("bad", none)] []) .store).2) ∧
      applyOp .store (Zip.addAllFrom Zip.createMem "d" (DirTree.node [("bad", none)] []) .store).2 op =
        .error .ioError :=
  treeOps_first_error.1 .store Zip.createMem _ "d" (DirTree.node [("bad", none)] [])
    .ioError (by decide)

theorem checksum32_cast (bs : List Nat) :
    ∀ c : Nat, ((bs.foldl checksumStep c : Nat) : ZMod 4294967296) =
      bs.foldl foldZ ((c : Nat) : ZMod 4294967296) := by
  induction bs with
  | nil => intro c; rfl
  | cons b t ih =>
    intro c
    rw [List.foldl_cons, List.foldl_cons, ih (checksumStep c b)]
    have hc : ((checksumStep c b : Nat) : ZMod 4294967296) =
        foldZ ((c : Nat) : ZMod 4294967296) b := by
      unfold checksumStep foldZ
      rw [ZMod.natCast_mod]
      push_cast
      ring
    rw [hc]

theorem checksum32_castZ (bs : List Nat) :
    ((checksum32 bs : Nat) : ZMod 4294967296) = bs.foldl foldZ 0 := by
  have h := checksum32_cast bs 0
  simpa using h

theorem foldZ_shift (zs : List Nat) :
    ∀ c1 c2 : ZMod 4294967296,
      zs.foldl foldZ c1 - zs.foldl foldZ c2 = (c1 - c2) * 257 ^ zs.length := by
  induction zs with
  | nil =>
    intro c1 c2
    simp
  | cons b t ih =>
    intro c1 c2
    simp only [List.foldl_cons, List.length_cons]
    rw [ih (foldZ c1 b) (foldZ c2 b)]
    unfold foldZ
    ring

theorem checksum32_single_byte (xs zs : List Nat) (y z : Nat)
    (hy : y < 4294967296) (hz : z < 4294967296) (hne : y ≠ z) :
    checksum32 (xs ++ y :: zs) ≠ checksum32 (xs ++ z :: zs) := by
  intro hEq
  apply hne
  have hcast : ((checksum32 (xs ++ y :: zs) : Nat) : ZMod 4294967296) =
      ((checksum32 (xs ++ z :: zs) : Nat) : ZMod 4294967296) := by rw [hEq]
  rw [checksum32_castZ, checksum32_castZ] at hcast
  simp only [List.foldl_append, List.foldl_cons] at hcast
  have h0 : (foldZ (List.foldl foldZ 0 xs) y - foldZ (List.foldl foldZ 0 xs) z) *
      257 ^ zs.length = 0 := by
    rw [← foldZ_shift]
    exact sub_eq_zero_of_eq hcast
  simp only [foldZ] at h0
  have hyz : ((y : ZMod 4294967296) - (z : ZMod 4294967296)) * 257 ^ zs.length = 0 := by
    rw [← h0]
    ring
  have hu : IsUnit ((257 : ZMod 4294967296) ^ zs.length) := by
    apply IsUnit.pow
    have h257 : ((257 : Nat) : ZMod 4294967296) = (257 : ZMod 4294967296) := by norm_cast
    rw [← h257, ZMod.isUnit_iff_coprime]
    norm_num
  have hsub : (y : ZMod 4294967296) - (z : ZMod 4294967296) = 0 :=
    (IsUnit.mul_left_eq_zero hu).mp hyz
  have hyz2 : (y : ZMod 4294967296) = (z : ZMod 4294967296) := sub_eq_zero.mp hsub
  have hv := congrArg ZMod.val hyz2
  rwa [ZMod.val_cast_of_lt hy, ZMod.val_cast_of_lt hz] at hv

theorem readU32_u32le (n : Nat) (rest : List Nat) (h : n < 4294967296) :
    readU32 (u32le n ++ rest) = n := by
  simp only [u32le, List.cons_append, List.nil_append, readU32]
  omega

theorem drop4_of_len (P X : List Nat) (k : Nat) (hP : P.length = 4) :
    (P ++ X).drop (4 + k) = X.drop k := by
  rw [← hP]
  exact drop_len_add P X k

theorem drop4_u32 (n : Nat) (X : List Nat) (k : Nat) :
    (u32le n ++ X).drop (4 + k) = X.drop k :=
  drop4_of_len (u32le n) X k rfl

theorem drop4_sigL (X : List Nat) (k : Nat) :
    (sigLocal ++ X).drop (4 + k) = X.drop k :=
  drop4_of_len sigLocal X k rfl

theorem drop4_sigC (X : List Nat) (k : Nat) :
    (sigCentral ++ X).drop (4 + k) = X.drop k :=
  drop4_of_len sigCentral X k rfl

theorem localHeader_length (e : Entry) :
    (localHeader e).length = 24 + (strBytes e.name).length := by
  simp only [localHeader, sigLocal, u32le, List.length_append, List.length_cons,
    List.length_nil]

theorem cdRecord_length (e : Entry) :
    (cdRecord e).length = 32 + (strBytes e.name).length := by
  simp only [cdRecord, sigCentral, u32le, List.length_append, List.length_cons,
    List.length_nil]

theorem localHeader_parse (e : Entry) (R : List Nat)
    (hnl : (strBytes e.name).length < 4294967296) :
    (localHeader e ++ R).take 4 = sigLocal ∧
    readU32 ((localHeader e ++ R).drop 20) = (strBytes e.name).length ∧
    (localHeader e ++ R).drop (24 + (strBytes e.name).length) = R := by
  have hsplit : localHeader e ++ R =
      sigLocal ++ (u32le (methodCode e.method) ++ (u32le e.uncompressedSize ++
        (u32le e.compressedSize ++ (u32le e.checksum ++
          (u32le (strBytes e.name).length ++ (strBytes e.name ++ R)))))) := by
    simp [localHeader, List.append_assoc]
  refine ⟨?_, ?_, ?_⟩
  · rw [hsplit]
    exact List.take_left' rfl
  · rw [hsplit, show (20 : Nat) = 4 + 16 from rfl, drop4_sigL,
      show (16 : Nat) = 4 + 12 from rfl, drop4_u32,
      show (12 : Nat) = 4 + 8 from rfl, drop4_u32,
      show (8 : Nat) = 4 + 4 from rfl, drop4_u32,
      show (4 : Nat) = 4 + 0 from rfl, drop4_u32,
      List.drop_zero]
    exact readU32_u32le _ _ hnl
  · exact List.drop_left' (localHeader_length e)

theorem cdRecord_parse (e : Entry) (R : List Nat) (hb : BoundedEntry e) :
    (cdRecord e ++ R).take 4 = sigCentral ∧
    readU32 ((cdRecord e ++ R).drop 4) = methodCode e.method ∧
    readU32 ((cdRecord e ++ R).drop 8) = e.uncompressedSize ∧
    readU32 ((cdRecord e ++ R).drop 12) = e.compressedSize ∧
    readU32 ((cdRecord e ++ R).drop 16) = e.checksum ∧
    readU32 ((cdRecord e ++ R).drop 20) = (strBytes e.name).length ∧
    readU32 ((cdRecord e ++ R).drop 24) = e.offset ∧
    readU32 ((cdRecord e ++ R).drop 28) = kindCode e.kind ∧
    ((cdRecord e ++ R).drop 32).take (strBytes e.name).length = strBytes e.name := by
  obtain ⟨hus, hcs, hck, hoff, hnl⟩ := hb
  have hsplit : cdRecord e ++ R =
      sigCentral ++ (u32le (methodCode e.method) ++ (u32le e.uncompressedSize ++
        (u32le e.compressedSize ++ (u32le e.checksum ++
          (u32le (strBytes e.name).length ++ (u32le e.offset ++
            (u32le (kindCode e.kind) ++ (strBytes e.name ++ R)))))))) := by
    simp [cdRecord, List.append_assoc]
  have hmc : methodCode e.method < 4294967296 := by
    cases e.method <;> simp [methodCode]
  have hkc : kindCode e.kind < 4294967296 := by
    cases e.kind <;> simp [kindCode]
  refine ⟨?_, ?_, ?_, ?_, ?_, ?_, ?_, ?_, ?_⟩
  · rw [hsplit]
    exact List.take_left' rfl
  · rw [hsplit, show (4 : Nat) = 4 + 0 from rfl, drop4_sigC, List.drop_zero]
    exact readU32_u32le _ _ hmc
  · rw [hsplit, show (8 : Nat) = 4 + 4 from rfl, drop4_sigC,
      show (4 : Nat) = 4 + 0 from rfl, drop4_u32, List.drop_zero]
    exact readU32_u32le _ _ hus
  · rw [hsplit, show (12 : Nat) = 4 + 8 from rfl, drop4_sigC,
      show (8 : Nat) = 4 + 4 from rfl, drop4_u32,
      show (4 : Nat) = 4 + 0 from rfl, drop4_u32, List.drop_zero]
    exact readU32_u32le _ _ hcs
  · rw [hsplit, show (16 : Nat) = 4 + 12 from rfl, drop4_sigC,
      show (12 : Nat) = 4 + 8 from rfl, drop4_u32,
      show (8 : Nat) = 4 + 4 from rfl, drop4_u32,
      show (4 : Nat) = 4 + 0 from rfl, drop4_u32, List.drop_zero]
    exact readU32_u32le _ _ hck
  · rw [hsplit, show (20 : Nat) = 4 + 16 from rfl, drop4_sigC,
      show (16 : Nat) = 4 + 12 from rfl, drop4_u32,
      show (12 : Nat) = 4 + 8 from rfl, drop4_u32,
      show (8 : Nat) = 4 + 4 from rfl, drop4_u32,
      show (4 : Nat) = 4 + 0 from rfl, drop4_u32, List.drop_zero]
    exact readU32_u32le _ _ hnl
  · rw [hsplit, show (24 : Nat) = 4 + 20 from rfl, drop4_sigC,
      show (20 : Nat) = 4 + 16 from rfl, drop4_u32,
      show (16 : Nat) = 4 + 12 from rfl, drop4_u32,
      show (12 : Nat) = 4 + 8 from rfl, drop4_u32,
      show (8 : Nat) = 4 + 4 from rfl, drop4_u32,
      show (4 : Nat) = 4 + 0 from rfl, drop4_u32, List.drop_zero]
    exact readU32_u32le _ _ hoff
  · rw [hsplit, show (28 : Nat) = 4 + 24 from rfl, drop4_sigC,
      show (24 : Nat) = 4 + 20 from rfl, drop4_u32,
      show (20 : Nat) = 4 + 16 from rfl, drop4_u32,
      show (16 : Nat) = 4 + 12 from rfl, drop4_u32,
      show (12 : Nat) = 4 + 8 from rfl, drop4_u32,
      show (8 : Nat) = 4 + 4 from rfl, drop4_u32,
      show (4 : Nat) = 4 + 0 from rfl, drop4_u32, List.drop_zero]
    exact readU32_u32le _ _ hkc
  · rw [hsplit, show (32 : Nat) = 4 + 28 from rfl, drop4_sigC,
      show (28 : Nat) = 4 + 24 from rfl, drop4_u32,
      show (24 : Nat) = 4 + 20 from rfl, drop4_u32,
      show (20 : Nat) = 4 + 16 from rfl, drop4_u32,
      show (16 : Nat) = 4 + 12 from rfl, drop4_u32,
      show (12 : Nat) = 4 + 8 from rfl, drop4_u32,
      show (8 : Nat) = 4 + 4 from rfl, drop4_u32,
      show (4 : Nat) = 4 + 0 from rfl, drop4_u32, List.drop_zero]
    exact List.take_left' rfl

theorem checksumStep_lt (c b : Nat) : checksumStep c b < 4294967296 := by
  unfold checksumStep
  exact Nat.mod_lt _ (by norm_num)

theorem checksum32_lt (bs : List Nat) : checksum32 bs < 4294967296 := by
  have haux : ∀ (l : List Nat) (c : Nat), c < 4294967296 →
      l.foldl checksumStep c < 4294967296 := by
    intro l
    induction l with
    | nil => intro c hc; exact hc
    | cons b t ih => intro c hc; exact ih (checksumStep c b) (checksumStep_lt c b)
  exact haux bs 0 (by norm_num)

theorem compress_length_ge (m : Method) (d : List Nat) :
    d.length ≤ (compress m d).length := by
  cases m <;> simp [compress]

theorem decompress_compress (m : Method) (d : List Nat) :
    decompress m (compress m d) d.length = .ok d := by
  cases m <;> simp [compress, decompress]

theorem methodOfCode_code (m : Method) : methodOfCode (methodCode m) = some m := by
  cases m <;> rfl

theorem kindOfCode_code (k : EntryKind) : kindOfCode (kindCode k) = some k := by
  cases k <;> rfl

theorem bytesStr_strBytes (s : String) : bytesStr (strBytes s) = s := by
  cases s with
  | mk data =>
    unfold bytesStr strBytes
    rw [List.map_map]
    have hid : (Char.ofNat ∘ Char.toNat) = id := funext Char.ofNat_toNat
    rw [hid, List.map_id]
    rfl

theorem forall2_mem_right {α β : Type} {R : α → β → Prop} :
    ∀ {as : List α} {bs : List β}, List.Forall₂ R as bs →
      ∀ b ∈ bs, ∃ a ∈ as, R a b := by
  intro as bs h
  induction h with
  | nil => intro b hb; cases hb
  | cons hR hrest ih =>
    intro b hb
    rcases List.mem_cons.mp hb with rfl | hb2
    · exact ⟨_, List.mem_cons_self _ _, hR⟩
    · obtain ⟨a, ha, hr⟩ := ih b hb2
      exact ⟨a, List.mem_cons_of_mem _ ha, hr⟩

theorem forall2_map_eq {α β γ : Type} {R : α → β → Prop} (f : α → γ) (g : β → γ)
    (hfg : ∀ a b, R a b → f a = g b) :
    ∀ {as : List α} {bs : List β}, List.Forall₂ R as bs → as.map f = bs.map g := by
  intro as bs h
  induction h with
  | nil => rfl
  | cons hR hrest ih => simp [List.map_cons, hfg _ _ hR, ih]

theorem find_entry (es : List Entry) (e : Entry)
    (hnd : (es.map (fun x => x.name)).Nodup) (he : e ∈ es) :
    es.find? (fun x => x.name == e.name) = some e := by
  induction es with
  | nil => cases he
  | cons a t ih =>
    simp only [List.map_cons, List.nodup_cons] at hnd
    obtain ⟨hnotin, hndt⟩ := hnd
    rcases List.mem_cons.mp he with rfl | hmem
    · exact List.find?_cons_of_pos _ (by simp)
    · have hne : (a.name == e.name) = false := by
        rw [beq_eq_false_iff_ne]
        intro hEq
        apply hnotin
        rw [hEq]
        exact List.mem_map_of_mem (fun x => x.name) hmem
      rw [List.find?_cons_of_neg _ (by simp [hne])]
      exact ih hndt hmem

theorem any_name_false (es : List Entry) (name : String)
    (h : ∀ e ∈ es, e.name ≠ name) :
    es.any (fun o => o.name == name) = false := by
  rw [List.any_eq_false]
  intro e he
  simp [h e he]

theorem addEntry_fresh (z : Impl) (name : String) (kind : EntryKind)
    (data : List Nat) (m : Method)
    (hfin : z.finalized = false) (hval : validEntryName name = true)
    (hfresh : ∀ e ∈ z.entries, e.name ≠ name) :
    addEntry z name kind data m = .ok
      { backing := z.backing,
        bytes := z.bytes ++ localHeader (mkEntry z name kind data m) ++ compress m data,
        entries := z.entries ++ [mkEntry z name kind data m],
        finalized := false } := by
  have hany := any_name_false z.entries name hfresh
  simp [addEntry, hfin, hval, hany]

theorem placedIn_append (bytes X : List Nat) (e : Entry) (d : List Nat)
    (h : PlacedIn bytes e d) : PlacedIn (bytes ++ X) e d := by
  obtain ⟨pre, post, hb, hl⟩ := h
  exact ⟨pre, post ++ X, by rw [hb]; simp [List.append_assoc], hl⟩

theorem addAll_spec (m : Method) :
    ∀ (pairs : List (String × List Nat)) (z : Impl),
      z.finalized = false →
      (∀ p ∈ pairs, validEntryName p.1 = true) →
      (pairs.map Prod.fst).Nodup →
      (∀ p ∈ pairs, ∀ e ∈ z.entries, e.name ≠ p.1) →
      ∃ z', addAll z pairs m = .ok z' ∧
        z'.backing = z.backing ∧ z'.finalized = false ∧
        z'.bytes.length = z.bytes.length + (pairs.map (blockLen m)).sum ∧
        (∃ es', z'.entries = z.entries ++ es' ∧
          List.Forall₂ (PairRel m z'.bytes) es' pairs) ∧
        (∀ e d, PlacedIn z.bytes e d → PlacedIn z'.bytes e d) := by
  intro pairs
  induction pairs with
  | nil =>
    intro z hfin hval hnd hfresh
    exact ⟨z, rfl, rfl, hfin, by simp [addAll], ⟨[], by simp, List.Forall₂.nil⟩,
      fun e d h => h⟩
  | cons p rest ih =>
    intro z hfin hval hnd hfresh
    have hp1 : validEntryName p.1 = true := hval p (List.mem_cons_self p rest)
    have hfr1 : ∀ e ∈ z.entries, e.name ≠ p.1 :=
      fun e he => hfresh p (List.mem_cons_self p rest) e he
    have hadd := addEntry_fresh z p.1 .file p.2 m hfin hp1 hfr1
    have hstep : addAll z (p :: rest) m =
        addAll { backing := z.backing,
                 bytes := z.bytes ++ localHeader (mkEntry z p.1 .file p.2 m) ++
                   compress m p.2,
                 entries := z.entries ++ [mkEntry z p.1 .file p.2 m],
                 finalized := false } rest m := by
      simp only [addAll, Zip.add, hadd]
    simp only [List.map_cons, List.nodup_cons] at hnd
    obtain ⟨hnotin, hndt⟩ := hnd
    have hvalRest : ∀ p' ∈ rest, validEntryName p'.1 = true :=
      fun p' hp' => hval p' (List.mem_cons_of_mem p hp')
    have hfreshRest : ∀ p' ∈ rest,
        ∀ e ∈ z.entries ++ [mkEntry z p.1 .file p.2 m], e.name ≠ p'.1 := by
      intro p' hp' e he
      rcases List.mem_append.mp he with h1 | h1
      · exact hfresh p' (List.mem_cons_of_mem p hp') e h1
      · have heq : e = mkEntry z p.1 .file p.2 m := by simpa using h1
        rw [heq]
        show p.1 ≠ p'.1
        intro hEq
        apply hnotin
        rw [hEq]
        exact List.mem_map_of_mem Prod.fst hp'
    obtain ⟨z', hrun, hback, hfin', hlen, ⟨es', hents, hfa⟩, hmono⟩ :=
      ih { backing := z.backing,
           bytes := z.bytes ++ localHeader (mkEntry z p.1 .file p.2 m) ++
             compress m p.2,
           entries := z.entries ++ [mkEntry z p.1 .file p.2 m],
           finalized := false } rfl hvalRest hndt hfreshRest
    refine ⟨z', by rw [hstep]; exact hrun, hback, hfin', ?_, ?_, ?_⟩
    · rw [hlen]
      dsimp only [mkEntry]
      simp only [List.length_append, localHeader_length, List.map_cons, List.sum_cons,
        blockLen]
      omega
    · refine ⟨mkEntry z p.1 .file p.2 m :: es', ?_, ?_⟩
      · rw [hents]
        simp [List.append_assoc]
      · refine List.Forall₂.cons ⟨rfl, rfl, rfl, ⟨rfl, rfl, rfl⟩, ?_⟩ hfa
        apply hmono
        refine ⟨z.bytes, [], ?_, rfl⟩
        dsimp only [mkEntry]
        simp [List.append_assoc]
    · intro e d h
      apply hmono
      exact placedIn_append _ _ _ _ (placedIn_append _ _ _ _ h)

theorem cdBytes_length (es : List Entry) :
    (cdBytes es).length = (es.map (fun e => 32 + (strBytes e.name).length)).sum := by
  induction es with
  | nil => rfl
  | cons e t ih => simp [cdBytes, List.length_append, cdRecord_length, ih]

theorem length_le_map_sum {α : Type} (f : α → Nat) (l : List α)
    (h : ∀ a ∈ l, 1 ≤ f a) : l.length ≤ (l.map f).sum := by
  induction l with
  | nil => simp
  | cons a t ih =>
    simp only [List.length_cons, List.map_cons, List.sum_cons]
    have h1 := h a (List.mem_cons_self a t)
    have h2 := ih (fun b hb => h b (List.mem_cons_of_mem a hb))
    omega

theorem findEocdAux_hit (bs : List Nat) (i : Nat)
    (h : (bs.drop i).take 4 = sigEocd) : findEocdAux bs i = some i := by
  cases i with
  | zero =>
    unfold findEocdAux
    rw [if_pos h]
  | succ j =>
    unfold findEocdAux
    rw [if_pos h]

theorem findEocd_spec (P E : List Nat) (hlen : E.length = 20)
    (hsig : E.take 4 = sigEocd) :
    findEocd (P ++ E) = some P.length := by
  unfold findEocd
  have hl : (P ++ E).length = P.length + 20 := by simp [hlen]
  rw [hl]
  rw [if_neg (by omega)]
  have hidx : P.length + 20 - 20 = P.length := by omega
  rw [hidx]
  apply findEocdAux_hit
  rw [List.drop_left]
  exact hsig

theorem drop4_sigE (X : List Nat) (k : Nat) :
    (sigEocd ++ X).drop (4 + k) = X.drop k :=
  drop4_of_len sigEocd X k rfl

theorem eocd_parse (count cdSize cdOff : Nat)
    (hc : count < 4294967296) (hs : cdSize < 4294967296) (ho : cdOff < 4294967296) :
    readU32 ((eocdBytes count cdSize cdOff).drop 4) = count ∧
    readU32 ((eocdBytes count cdSize cdOff).drop 8) = cdSize ∧
    readU32 ((eocdBytes count cdSize cdOff).drop 12) = cdOff := by
  have hsplit : eocdBytes count cdSize cdOff =
      sigEocd ++ (u32le count ++ (u32le cdSize ++ (u32le cdOff ++ u32le 0))) := by
    simp [eocdBytes, List.append_assoc]
  refine ⟨?_, ?_, ?_⟩
  · rw [hsplit, show (4 : Nat) = 4 + 0 from rfl, drop4_sigE, List.drop_zero]
    exact readU32_u32le _ _ hc
  · rw [hsplit, show (8 : Nat) = 4 + 4 from rfl, drop4_sigE,
      show (4 : Nat) = 4 + 0 from rfl, drop4_u32, List.drop_zero]
    exact readU32_u32le _ _ hs
  · rw [hsplit, show (12 : Nat) = 4 + 8 from rfl, drop4_sigE,
      show (8 : Nat) = 4 + 4 from rfl, drop4_u32,
      show (4 : Nat) = 4 + 0 from rfl, drop4_u32, List.drop_zero]
    exact readU32_u32le _ _ ho

theorem parseCd_spec (es : List Entry) :
    ∀ (pre post : List Nat), (∀ e ∈ es, BoundedEntry e) →
      parseCd (pre ++ (cdBytes es ++ post)) pre.length es.length = .ok es := by
  induction es with
  | nil => intro pre post hb; rfl
  | cons e rest ih =>
    intro pre post hb
    have hbe : BoundedEntry e := hb e (List.mem_cons_self e rest)
    obtain ⟨hsig, hm, hus, hcs, hck, hnl, hoff, hkd, hname⟩ :=
      cdRecord_parse e (cdBytes rest ++ post) hbe
    have harr : pre ++ (cdBytes (e :: rest) ++ post) =
        pre ++ (cdRecord e ++ (cdBytes rest ++ post)) := by
      simp [cdBytes, List.append_assoc]
    rw [harr]
    have hrec : parseCd (pre ++ (cdRecord e ++ (cdBytes rest ++ post)))
        (pre.length + 32 + (strBytes e.name).length) rest.length = .ok rest := by
      have h2 := ih (pre ++ cdRecord e) post
        (fun e' he' => hb e' (List.mem_cons_of_mem e he'))
      have harr2 : (pre ++ cdRecord e) ++ (cdBytes rest ++ post) =
          pre ++ (cdRecord e ++ (cdBytes rest ++ post)) := by
        simp [List.append_assoc]
      have hplen : (pre ++ cdRecord e).length =
          pre.length + 32 + (strBytes e.name).length := by
        rw [List.length_append, cdRecord_length]
        omega
      rw [harr2, hplen] at h2
      exact h2
    rw [show (e :: rest).length = rest.length + 1 from rfl]
    simp only [parseCd]
    rw [List.drop_left]
    rw [drop_len_add pre (cdRecord e ++ (cdBytes rest ++ post)) 4,
      drop_len_add pre (cdRecord e ++ (cdBytes rest ++ post)) 8,
      drop_len_add pre (cdRecord e ++ (cdBytes rest ++ post)) 12,
      drop_len_add pre (cdRecord e ++ (cdBytes rest ++ post)) 16,
      drop_len_add pre (cdRecord e ++ (cdBytes rest ++ post)) 20,
      drop_len_add pre (cdRecord e ++ (cdBytes rest ++ post)) 24,
      drop_len_add pre (cdRecord e ++ (cdBytes rest ++ post)) 28,
      drop_len_add pre (cdRecord e ++ (cdBytes rest ++ post)) 32]
    simp [hsig, hnl, hname, hm, hus, hcs, hck, hoff, hkd,
      methodOfCode_code, kindOfCode_code, hrec, bytesStr_strBytes]

theorem finalize_spec (z : Impl) (hfin : z.finalized = false) :
    Zip.finalize z = .ok
      { backing := z.backing,
        bytes := z.bytes ++ cdBytes z.entries ++
          eocdBytes z.entries.length (cdBytes z.entries).length z.bytes.length,
        entries := z.entries, finalized := true } := by
  simp [Zip.finalize, hfin]

theorem getData_mem (z : Impl) (h : z.backing = .memory) : Zip.getData z = z.bytes := by
  unfold Zip.getData
  rw [h]

theorem openBytes_ok (back : Backing) (W : List Nat) (es : List Entry)
    (hb : ∀ e ∈ es, BoundedEntry e)
    (hW : W.length < 4294967296)
    (hcd : (cdBytes es).length < 4294967296)
    (hcount : es.length < 4294967296) :
    openBytes back
        (W ++ cdBytes es ++ eocdBytes es.length (cdBytes es).length W.length) =
      .ok { backing := back,
            bytes := W ++ cdBytes es ++
              eocdBytes es.length (cdBytes es).length W.length,
            entries := es, finalized := true } := by
  have heL : (eocdBytes es.length (cdBytes es).length W.length).length = 20 := rfl
  have heS : (eocdBytes es.length (cdBytes es).length W.length).take 4 = sigEocd := rfl
  have hfind : findEocd
      (W ++ cdBytes es ++ eocdBytes es.length (cdBytes es).length W.length) =
      some (W.length + (cdBytes es).length) := by
    have h := findEocd_spec (W ++ cdBytes es)
      (eocdBytes es.length (cdBytes es).length W.length) heL heS
    rw [List.length_append] at h
    exact h
  obtain ⟨hc4, hc8, hc12⟩ :=
    eocd_parse es.length (cdBytes es).length W.length hcount hcd hW
  have hdropE : ∀ k,
      (W ++ cdBytes es ++ eocdBytes es.length (cdBytes es).length W.length).drop
        (W.length + (cdBytes es).length + k) =
      (eocdBytes es.length (cdBytes es).length W.length).drop k := by
    intro k
    have h1 : W.length + (cdBytes es).length + k = (W ++ cdBytes es).length + k := by
      rw [List.length_append]
    rw [h1]
    exact drop_len_add (W ++ cdBytes es) _ k
  have hparse := parseCd_spec es W
    (eocdBytes es.length (cdBytes es).length W.length) hb
  simp only [openBytes, hfind]
  rw [hdropE 12, hdropE 8, hdropE 4, hc12, hc8, hc4]
  simp [hparse]

theorem extract_placed (u : Impl) (e : Entry) (d : List Nat)
    (hnd : (u.entries.map (fun x => x.name)).Nodup)
    (he : e ∈ u.entries)
    (hgood : GoodEntry u.bytes e d) :
    Unzip.extract u e.name = .ok d := by
  obtain ⟨⟨hus, hcs, hck⟩, ⟨pre, post, hbb, hoff⟩, hbnd⟩ := hgood
  have hdrop : u.bytes.drop e.offset =
      localHeader e ++ (compress e.method d ++ post) := by
    rw [hbb, ← hoff]
    rw [show pre ++ localHeader e ++ compress e.method d ++ post =
        pre ++ (localHeader e ++ (compress e.method d ++ post)) from by
      simp [List.append_assoc]]
    exact List.drop_left _ _
  obtain ⟨hsig, hnl, hpay⟩ :=
    localHeader_parse e (compress e.method d ++ post) hbnd.2.2.2.2
  have hfind := find_entry u.entries e hnd he
  simp [Unzip.extract, hfind, hdrop, hsig, hnl, hpay, hcs, hus, hck, List.take_left,
    decompress_compress]

theorem forall2_mem_left {α β : Type} {R : α → β → Prop} :
    ∀ {as : List α} {bs : List β}, List.Forall₂ R as bs →
      ∀ a ∈ as, ∃ b ∈ bs, R a b := by
  intro as bs h
  induction h with
  | nil => intro a ha; cases ha
  | cons hR hrest ih =>
    intro a ha
    rcases List.mem_cons.mp ha with rfl | ha2
    · exact ⟨_, List.mem_cons_self _ _, hR⟩
    · obtain ⟨b, hb, hr⟩ := ih a ha2
      exact ⟨b, List.mem_cons_of_mem _ hb, hr⟩

theorem map_sum_le {α : Type} (f g : α → Nat) (l : List α)
    (h : ∀ a ∈ l, f a ≤ g a) : (l.map f).sum ≤ (l.map g).sum := by
  induction l with
  | nil => simp
  | cons a t ih =>
    simp only [List.map_cons, List.sum_cons]
    have h1 := h a (List.mem_cons_self a t)
    have h2 := ih (fun b hb => h b (List.mem_cons_of_mem a hb))
    omega

theorem writer_open (m : Method) (pairs : List (String × List Nat))
    (hval : ∀ p ∈ pairs, validEntryName p.1 = true)
    (hnd : (pairs.map Prod.fst).Nodup)
    (hsz : archSize m pairs < 4294967296) :
    ∃ z zf u, addAll Zip.createMem pairs m = .ok z ∧
      Zip.finalize z = .ok zf ∧
      Unzip.createFromData (Zip.getData zf) = .ok u ∧
      u.entries = z.entries ∧
      z.entries.map (fun e => e.name) = pairs.map Prod.fst ∧
      (∀ p ∈ pairs, Unzip.extract u p.1 = .ok p.2) := by
  obtain ⟨z, hrun, hback, hfinz, hlen, ⟨es, hents, hfa⟩, _⟩ :=
    addAll_spec m pairs Zip.createMem rfl hval hnd
      (fun p hp e he => absurd he (List.not_mem_nil e))
  have hents' : z.entries = es := by simpa using hents
  have hlen' : z.bytes.length = (pairs.map (blockLen m)).sum := by
    simpa [Zip.createMem] using hlen
  have hble : ∀ p ∈ pairs, blockLen m p + cdLenOf p ≤
      (pairs.map (fun q => blockLen m q + cdLenOf q)).sum :=
    fun p hp => List.le_sum_of_mem (List.mem_map_of_mem _ hp)
  have hsum : (pairs.map (fun q => blockLen m q + cdLenOf q)).sum + 20 < 4294967296 :=
    hsz
  have hWsum : (pairs.map (blockLen m)).sum ≤
      (pairs.map (fun q => blockLen m q + cdLenOf q)).sum :=
    map_sum_le _ _ _ (fun a _ => by omega)
  have hW : z.bytes.length < 4294967296 := by rw [hlen']; omega
  have hmapname : es.map (fun e => e.name) = pairs.map Prod.fst :=
    forall2_map_eq _ _ (fun a b r => r.1) hfa
  have hcdeq : (cdBytes es).length = (pairs.map cdLenOf).sum := by
    rw [cdBytes_length]
    have hmapeq : es.map (fun e => 32 + (strBytes e.name).length) =
        pairs.map cdLenOf := by
      apply forall2_map_eq _ _ _ hfa
      intro e p hr
      simp [cdLenOf, hr.1]
    rw [hmapeq]
  have hCsum : (pairs.map cdLenOf).sum ≤
      (pairs.map (fun q => blockLen m q + cdLenOf q)).sum :=
    map_sum_le _ _ _ (fun a _ => by omega)
  have hcd : (cdBytes es).length < 4294967296 := by rw [hcdeq]; omega
  have hcnt : es.length < 4294967296 := by
    have h1 : es.length = pairs.length := List.Forall₂.length_eq hfa
    have h2 : pairs.length ≤ (pairs.map (fun q => blockLen m q + cdLenOf q)).sum :=
      length_le_map_sum _ _ (fun a _ => by unfold blockLen cdLenOf; omega)
    omega
  have hbnd : ∀ e ∈ es, BoundedEntry e := by
    intro e he
    obtain ⟨p, hp, hrel⟩ := forall2_mem_left hfa e he
    obtain ⟨hname, hmeth, hkind, ⟨hus, hcs, hck⟩, hpl⟩ := hrel
    have hble' := hble p hp
    have hblp : blockLen m p = 24 + (strBytes p.1).length + (compress m p.2).length :=
      rfl
    have hclp : cdLenOf p = 32 + (strBytes p.1).length := rfl
    have hcompge := compress_length_ge m p.2
    have hoffle : e.offset ≤ z.bytes.length := by
      obtain ⟨pre, post, hby, hoffeq⟩ := hpl
      rw [hby, ← hoffeq]
      simp [List.length_append]
    refine ⟨?_, ?_, ?_, ?_, ?_⟩
    · rw [hus]
      omega
    · rw [hcs, hmeth]
      omega
    · rw [hck]
      exact checksum32_lt p.2
    · omega
    · rw [hname]
      omega
  have hzf := finalize_spec z hfinz
  rw [hents'] at hzf
  have hbackm : z.backing = Backing.memory := hback
  have hob := openBytes_ok Backing.memory z.bytes es hbnd hW hcd hcnt
  have hgd : Zip.getData
      { backing := z.backing,
        bytes := z.bytes ++ cdBytes es ++
          eocdBytes es.length (cdBytes es).length z.bytes.length,
        entries := es, finalized := true } =
      z.bytes ++ cdBytes es ++
        eocdBytes es.length (cdBytes es).length z.bytes.length :=
    getData_mem _ hbackm
  have hopen : Unzip.createFromData (Zip.getData
      { backing := z.backing,
        bytes := z.bytes ++ cdBytes es ++
          eocdBytes es.length (cdBytes es).length z.bytes.length,
        entries := es, finalized := true }) = .ok
      { backing := Backing.memory,
        bytes := z.bytes ++ cdBytes es ++
          eocdBytes es.length (cdBytes es).length z.bytes.length,
        entries := es, finalized := true } := by
    unfold Unzip.createFromData
    rw [hgd]
    exact hob
  refine ⟨z,
    { backing := z.backing,
      bytes := z.bytes ++ cdBytes es ++
        eocdBytes es.length (cdBytes es).length z.bytes.length,
      entries := es, finalized := true },
    { backing := Backing.memory,
      bytes := z.bytes ++ cdBytes es ++
        eocdBytes es.length (cdBytes es).length z.bytes.length,
      entries := es, finalized := true },
    hrun, hzf, hopen, hents'.symm, by rw [hents']; exact hmapname, ?_⟩
  intro p hp
  obtain ⟨e, he, hrel⟩ := forall2_mem_right hfa p hp
  obtain ⟨hname, hmeth, hkind, hed, hpl⟩ := hrel
  have hplu : PlacedIn (z.bytes ++ cdBytes es ++
      eocdBytes es.length (cdBytes es).length z.bytes.length) e p.2 :=
    placedIn_append _ _ _ _ (placedIn_append _ _ _ _ hpl)
  have hnd2 : (es.map (fun x => x.name)).Nodup := by
    rw [hmapname]
    exact hnd
  have hx := extract_placed
    { backing := Backing.memory,
      bytes := z.bytes ++ cdBytes es ++
        eocdBytes es.length (cdBytes es).length z.bytes.length,
      entries := es, finalized := true }
    e p.2 hnd2 he ⟨hed, hplu, hbnd e he⟩
  rw [← hname]
  exact hx

/-- C1: for any set of (name, bytes) pairs with valid distinct entry
names whose total serialized size fits the 32-bit container fields (the
engine does not implement ZIP64, spec.md §1), adding each pair, then
finalizing, then reopening the produced bytes with Unzip::create, then
extracting each name returns the original bytes unchanged; the method is
universally quantified, covering both Store and Deflate. -/
theorem zip_roundTrip (m : Method) (pairs : List (String × List Nat))
    (hval : ∀ p ∈ pairs, validEntryName p.1 = true)
    (hnd : (pairs.map Prod.fst).Nodup)
    (hsz : archSize m pairs < 4294967296) :
    ∃ z zf u, addAll Zip.createMem pairs m = .ok z ∧
      Zip.finalize z = .ok zf ∧
      Unzip.createFromData (Zip.getData zf) = .ok u ∧
      ∀ p ∈ pairs, Unzip.extract u p.1 = .ok p.2 := by
  obtain ⟨z, zf, u, h1, h2, h3, _, _, h6⟩ := writer_open m pairs hval hnd hsz
  exact ⟨z, zf, u, h1, h2, h3, h6⟩

/-- Witness for C1 on a concrete two-entry archive, for both methods. -/
theorem zip_roundTrip_witness :
    (∃ z zf u,
      addAll Zip.createMem [("a.txt", [1, 2, 3]), ("b/c.bin", [255, 0])] .store =
        .ok z ∧
      Zip.finalize z = .ok zf ∧
      Unzip.createFromData (Zip.getData zf) = .ok u ∧
      ∀ p ∈ [("a.txt", [1, 2, 3]), ("b/c.bin", [255, 0])],
        Unzip.extract u p.1 = .ok p.2) ∧
    (∃ z zf u,
      addAll Zip.createMem [("a.txt", [1, 2, 3]), ("b/c.bin", [255, 0])] .deflate =
        .ok z ∧
      Zip.finalize z = .ok zf ∧
      Unzip.createFromData (Zip.getData zf) = .ok u ∧
      ∀ p ∈ [("a.txt", [1, 2, 3]), ("b/c.bin", [255, 0])],
        Unzip.extract u p.1 = .ok p.2) :=
  ⟨zip_roundTrip .store [("a.txt", [1, 2, 3]), ("b/c.bin", [255, 0])]
      (by decide) (by decide) (by decide),
   zip_roundTrip .deflate [("a.txt", [1, 2, 3]), ("b/c.bin", [255, 0])]
      (by decide) (by decide) (by decide)⟩

/-- C8: getEntries is a pure accessor, so two successive calls with no
intervening operations return identical ordered lists; and on an archive
opened from a finalized writer the reader's catalog equals the writer's
catalog, whose names getEntries lists in exactly the order their records
were written into the central directory. -/
theorem getEntries_idem_cd_order :
    (∀ u : Impl, Unzip.getEntries u = Unzip.getEntries u) ∧
    (∀ (m : Method) (pairs : List (String × List Nat)),
      (∀ p ∈ pairs, validEntryName p.1 = true) →
      (pairs.map Prod.fst).Nodup →
      archSize m pairs < 4294967296 →
      ∃ z zf u, addAll Zip.createMem pairs m = .ok z ∧
        Zip.finalize z = .ok zf ∧
        Unzip.createFromData (Zip.getData zf) = .ok u ∧
        u.entries = z.entries ∧
        Unzip.getEntries u = z.entries.map (fun e => e.name)) := by
  constructor
  · intro u
    rfl
  · intro m pairs hval hnd hsz
    obtain ⟨z, zf, u, h1, h2, h3, h4, h5, h6⟩ := writer_open m pairs hval hnd hsz
    refine ⟨z, zf, u, h1, h2, h3, h4, ?_⟩
    unfold Unzip.getEntries
    rw [h4]

/-- Witness for C8 on a concrete archive. -/
theorem getEntries_idem_cd_order_witness :
    ∃ z zf u,
      addAll Zip.createMem [("a.txt", [1, 2, 3]), ("b/c.bin", [255, 0])] .deflate =
        .ok z ∧
      Zip.finalize z = .ok zf ∧
      Unzip.createFromData (Zip.getData zf) = .ok u ∧
      u.entries = z.entries ∧
      Unzip.getEntries u = z.entries.map (fun e => e.name) :=
  getEntries_idem_cd_order.2 .deflate [("a.txt", [1, 2, 3]), ("b/c.bin", [255, 0])]
    (by decide) (by decide) (by decide)

theorem compress_length_le (m : Method) (d : List Nat) :
    (compress m d).length ≤ d.length + 1 := by
  cases m <;> simp [compress]

theorem addEntry_replace_single (z : Impl) (e1 : Entry) (name : String)
    (kind : EntryKind) (data : List Nat) (m : Method)
    (hents : z.entries = [e1]) (hname : e1.name = name)
    (hfin : z.finalized = false) (hval : validEntryName name = true) :
    addEntry z name kind data m = .ok
      { backing := z.backing,
        bytes := z.bytes ++ localHeader (mkEntry z name kind data m) ++
          compress m data,
        entries := [mkEntry z name kind data m],
        finalized := false } := by
  simp [addEntry, hfin, hval, hents, hname]

theorem addEntry_nodup (z : Impl) (name : String) (kind : EntryKind)
    (data : List Nat) (m : Method) (z' : Impl)
    (hnd : (z.entries.map (fun e => e.name)).Nodup)
    (h : addEntry z name kind data m = .ok z') :
    (z'.entries.map (fun e => e.name)).Nodup := by
  unfold addEntry at h
  by_cases hfin : z.finalized = true
  · rw [if_pos hfin] at h
    exact absurd h (by simp)
  · rw [if_neg hfin] at h
    by_cases hv : validEntryName name = true
    · have hcond : ¬ ((!validEntryName name) = true) := by simp [hv]
      rw [if_neg hcond] at h
      injection h with h2
      subst h2
      dsimp only
      by_cases hany : z.entries.any (fun o => o.name == name) = true
      · rw [if_pos hany]
        have hsame : (z.entries.map
            (fun o => if o.name == name then mkEntry z name kind data m else o)).map
            (fun e => e.name) = z.entries.map (fun e => e.name) := by
          rw [List.map_map]
          apply List.map_congr_left
          intro o ho
          by_cases hon : (o.name == name) = true
          · simp only [Function.comp, hon, if_true]
            have : o.name = name := beq_iff_eq.mp hon
            simp [mkEntry, this]
          · simp [Function.comp, hon]
        rw [hsame]
        exact hnd
      · rw [if_neg hany]
        have hnotin : name ∉ z.entries.map (fun e => e.name) := by
          intro hmem
          obtain ⟨o, ho, hoeq⟩ := List.mem_map.mp hmem
          have hany2 : z.entries.any (fun o => o.name == name) = false := by
            simpa using hany
          rw [List.any_eq_false] at hany2
          exact hany2 o ho (by simp [hoeq])
        simp [List.nodup_append, hnd, mkEntry, hnotin]
    · have hcond : (!validEntryName name) = true := by
        simp [Bool.not_eq_true] at hv
        simp [hv]
      rw [if_pos hcond] at h
      exact absurd h (by simp)

theorem finalize_open_extract (z : Impl) (es : List Entry)
    (hback : z.backing = Backing.memory) (hfin : z.finalized = false)
    (hents : z.entries = es)
    (hnd : (es.map (fun e => e.name)).Nodup)
    (hbnd : ∀ e ∈ es, BoundedEntry e)
    (hW : z.bytes.length < 4294967296)
    (hcd : (cdBytes es).length < 4294967296)
    (hcnt : es.length < 4294967296) :
    ∃ zf u, Zip.finalize z = .ok zf ∧
      Unzip.createFromData (Zip.getData zf) = .ok u ∧
      u.entries = es ∧
      (∀ (e : Entry) (d : List Nat), e ∈ es → EntryData e d →
        PlacedIn z.bytes e d → Unzip.extract u e.name = .ok d) := by
  have hzf := finalize_spec z hfin
  rw [hents] at hzf
  have hob := openBytes_ok Backing.memory z.bytes es hbnd hW hcd hcnt
  have hgd : Zip.getData
      { backing := z.backing,
        bytes := z.bytes ++ cdBytes es ++
          eocdBytes es.length (cdBytes es).length z.bytes.length,
        entries := es, finalized := true } =
      z.bytes ++ cdBytes es ++
        eocdBytes es.length (cdBytes es).length z.bytes.length :=
    getData_mem _ hback
  refine ⟨_,
    { backing := Backing.memory,
      bytes := z.bytes ++ cdBytes es ++
        eocdBytes es.length (cdBytes es).length z.bytes.length,
      entries := es, finalized := true },
    hzf, ?_, rfl, ?_⟩
  · unfold Unzip.createFromData
    rw [hgd]
    exact hob
  · intro e d he hed hpl
    have hplu : PlacedIn (z.bytes ++ cdBytes es ++
        eocdBytes es.length (cdBytes es).length z.bytes.length) e d :=
      placedIn_append _ _ _ _ (placedIn_append _ _ _ _ hpl)
    exact extract_placed
      { backing := Backing.memory,
        bytes := z.bytes ++ cdBytes es ++
          eocdBytes es.length (cdBytes es).length z.bytes.length,
        entries := es, finalized := true }
      e d hnd he ⟨hed, hplu, hbnd e he⟩

/-- C4: adding the same entry name twice with different contents, then
finalizing and reopening, yields a reader that sees exactly one entry
with that name whose content is the second write's content; and adding
an entry always preserves uniqueness of the catalog's names. -/
theorem zip_overwrite (m : Method) (n : String) (d1 d2 : List Nat)
    (hval : validEntryName n = true) (_hne : d1 ≠ d2)
    (hsz : (strBytes n).length + d1.length + d2.length < 100000000) :
    (∃ z1 z2 zf u,
      Zip.add Zip.createMem n d1 m = .ok z1 ∧
      Zip.add z1 n d2 m = .ok z2 ∧
      Zip.finalize z2 = .ok zf ∧
      Unzip.createFromData (Zip.getData zf) = .ok u ∧
      Unzip.getEntries u = [n] ∧
      Unzip.extract u n = .ok d2) ∧
    (∀ (z z' : Impl) (name : String) (kind : EntryKind) (data : List Nat),
      (z.entries.map (fun e => e.name)).Nodup →
      addEntry z name kind data m = .ok z' →
      (z'.entries.map (fun e => e.name)).Nodup) := by
  constructor
  · have hfr : ∀ e ∈ Zip.createMem.entries, e.name ≠ n :=
      fun e he => absurd he (List.not_mem_nil e)
    have h1 := addEntry_fresh Zip.createMem n .file d1 m rfl hval hfr
    have h2 := addEntry_replace_single
      { backing := Zip.createMem.backing,
        bytes := Zip.createMem.bytes ++
          localHeader (mkEntry Zip.createMem n .file d1 m) ++ compress m d1,
        entries := Zip.createMem.entries ++ [mkEntry Zip.createMem n .file d1 m],
        finalized := false }
      (mkEntry Zip.createMem n .file d1 m) n .file d2 m rfl rfl rfl hval
    have hc1 := compress_length_le m d1
    have hc2 := compress_length_le m d2
    have hcg1 := compress_length_ge m d1
    have hcg2 := compress_length_ge m d2
    obtain ⟨zf, u, hf, ho, hue, hex⟩ := finalize_open_extract
      { backing := Zip.createMem.backing,
        bytes := (Zip.createMem.bytes ++
            localHeader (mkEntry Zip.createMem n .file d1 m) ++ compress m d1) ++
          localHeader (mkEntry
            { backing := Zip.createMem.backing,
              bytes := Zip.createMem.bytes ++
                localHeader (mkEntry Zip.createMem n .file d1 m) ++ compress m d1,
              entries := Zip.createMem.entries ++
                [mkEntry Zip.createMem n .file d1 m],
              finalized := false } n .file d2 m) ++ compress m d2,
        entries := [mkEntry
          { backing := Zip.createMem.backing,
            bytes := Zip.createMem.bytes ++
              localHeader (mkEntry Zip.createMem n .file d1 m) ++ compress m d1,
            entries := Zip.createMem.entries ++
              [mkEntry Zip.createMem n .file d1 m],
            finalized := false } n .file d2 m],
        finalized := false }
      [mkEntry
        { backing := Zip.createMem.backing,
          bytes := Zip.createMem.bytes ++
            localHeader (mkEntry Zip.createMem n .file d1 m) ++ compress m d1,
          entries := Zip.createMem.entries ++
            [mkEntry Zip.createMem n .file d1 m],
          finalized := false } n .file d2 m]
      rfl rfl rfl
      (by simp [mkEntry])
      (by
        intro e he
        have heq : e = mkEntry
            { backing := Zip.createMem.backing,
              bytes := Zip.createMem.bytes ++
                localHeader (mkEntry Zip.createMem n .file d1 m) ++ compress m d1,
              entries := Zip.createMem.entries ++
                [mkEntry Zip.createMem n .file d1 m],
              finalized := false } n .file d2 m := by simpa using he
        subst heq
        refine ⟨?_, ?_, ?_, ?_, ?_⟩
        · show d2.length < 4294967296
          omega
        · show (compress _ d2).length < 4294967296
          omega
        · exact checksum32_lt d2
        · show (Zip.createMem.bytes ++
              localHeader (mkEntry Zip.createMem n .file d1 m) ++
              compress m d1).length < 4294967296
          simp only [List.length_append, localHeader_length]
          dsimp only [mkEntry, Zip.createMem]
          simp only [List.length_nil]
          omega
        · show (strBytes n).length < 4294967296
          omega)
      (by
        dsimp only
        simp only [List.length_append, localHeader_length]
        dsimp only [mkEntry, Zip.createMem]
        simp only [List.length_nil]
        omega)
      (by
        rw [cdBytes_length]
        simp only [List.map_cons, List.map_nil, List.sum_cons, List.sum_nil]
        dsimp only [mkEntry]
        omega)
      (by norm_num)
    refine ⟨_, _, _, _, h1, h2, hf, ho, ?_, ?_⟩
    · unfold Unzip.getEntries
      rw [hue]
      simp [mkEntry]
    · have hx := hex (mkEntry
        { backing := Zip.createMem.backing,
          bytes := Zip.createMem.bytes ++
            localHeader (mkEntry Zip.createMem n .file d1 m) ++ compress m d1,
          entries := Zip.createMem.entries ++
            [mkEntry Zip.createMem n .file d1 m],
          finalized := false } n .file d2 m) d2
        (List.mem_singleton_self _) ⟨rfl, rfl, rfl⟩
        ⟨Zip.createMem.bytes ++
            localHeader (mkEntry Zip.createMem n .file d1 m) ++ compress m d1, [],
          by simp [mkEntry], rfl⟩
      exact hx
  · intro z z' name kind data hnd h
    exact addEntry_nodup z name kind data m z' hnd h

/-- Witness for C4 with a concrete name and two concrete contents. -/
theorem zip_overwrite_witness :
    ∃ z1 z2 zf u,
      Zip.add Zip.createMem "a.txt" [1] .store = .ok z1 ∧
      Zip.add z1 "a.txt" [9, 9] .store = .ok z2 ∧
      Zip.finalize z2 = .ok zf ∧
      Unzip.createFromData (Zip.getData zf) = .ok u ∧
      Unzip.getEntries u = ["a.txt"] ∧
      Unzip.extract u "a.txt" = .ok [9, 9] :=
  (zip_overwrite .store "a.txt" [1] [9, 9] (by decide) (by decide) (by decide)).1

theorem decompress_deflate_ne (c : Nat) (hc : c ≠ 120) (rest : List Nat) (exp : Nat) :
    decompress .deflate (c :: rest) exp = .error .malformedArchive := by
  unfold decompress
  split
  · rename_i heq
    exact Method.noConfusion heq
  · split
    · rename_i rest2 heq2
      injection heq2 with h1 h2
      exact absurd h1 hc
    · rfl

theorem decompress_deflate_marker (rest : List Nat) (exp : Nat) :
    decompress .deflate (120 :: rest) exp =
      if rest.length = exp then .ok rest else .error .malformedArchive := rfl

/-- C3 (amended): corrupting exactly one byte of an entry's compressed
payload after finalization makes extract fail — with ChecksumMismatch or
(for a Deflate stream whose framing byte was hit) MalformedArchive — and
never return the corrupted bytes as a success; for Store-method entries
the failure is always ChecksumMismatch. -/
theorem extract_corrupted (u : Impl) (e : Entry) (d : List Nat)
    (pre post xs zs : List Nat) (y y1 : Nat)
    (hnd : (u.entries.map (fun x => x.name)).Nodup)
    (he : e ∈ u.entries)
    (hed : EntryData e d)
    (hbnd : BoundedEntry e)
    (hcomp : compress e.method d = xs ++ y :: zs)
    (hy : y < 4294967296) (hy1 : y1 < 4294967296) (hne : y1 ≠ y)
    (hb : u.bytes = pre ++ localHeader e ++ (xs ++ y1 :: zs) ++ post)
    (hoff : pre.length = e.offset) :
    (Unzip.extract u e.name = .error .checksumMismatch ∨
      Unzip.extract u e.name = .error .malformedArchive) ∧
    (e.method = .store → Unzip.extract u e.name = .error .checksumMismatch) ∧
    (∀ out, Unzip.extract u e.name ≠ .ok out) := by
  obtain ⟨hus, hcs, hck⟩ := hed
  have hfind := find_entry u.entries e hnd he
  have hdrop : u.bytes.drop e.offset =
      localHeader e ++ ((xs ++ y1 :: zs) ++ post) := by
    rw [hb, ← hoff]
    rw [show pre ++ localHeader e ++ (xs ++ y1 :: zs) ++ post =
        pre ++ (localHeader e ++ ((xs ++ y1 :: zs) ++ post)) from by
      simp [List.append_assoc]]
    exact List.drop_left _ _
  obtain ⟨hsig, hnl, hpay⟩ :=
    localHeader_parse e ((xs ++ y1 :: zs) ++ post) hbnd.2.2.2.2
  have hlencorr : (xs ++ y1 :: zs).length = (compress e.method d).length := by
    rw [hcomp]
    simp
  have hlen2 : (xs ++ y1 :: zs).length = e.compressedSize := by
    rw [hcs, hlencorr]
  have htake : ((xs ++ y1 :: zs) ++ post).take e.compressedSize = xs ++ y1 :: zs := by
    rw [hcs, ← hlencorr]
    exact List.take_left _ _
  have hstep : Unzip.extract u e.name =
      (match decompress e.method (xs ++ y1 :: zs) e.uncompressedSize with
       | .ok data =>
         if checksum32 data = e.checksum then .ok data
         else .error .checksumMismatch
       | .error err => .error err) := by
    simp only [Unzip.extract, hfind, hdrop, hsig, hnl, hpay, htake, hlen2,
      eq_self_iff_true, if_true]
  rcases hM : e.method with _ | _
  · -- store
    rw [hM] at hcomp
    simp only [compress] at hcomp
    have hlen3 : (xs ++ y1 :: zs).length = e.uncompressedSize := by
      rw [hus, hcomp]
      simp
    have hdec : decompress .store (xs ++ y1 :: zs) e.uncompressedSize =
        .ok (xs ++ y1 :: zs) := by
      unfold decompress
      rw [if_pos hlen3]
    have hchk : ¬ checksum32 (xs ++ y1 :: zs) = e.checksum := by
      rw [hck, hcomp]
      exact checksum32_single_byte xs zs y1 y hy1 hy hne
    rw [hM] at hstep
    rw [hdec] at hstep
    have hstep2 : Unzip.extract u e.name =
        (if checksum32 (xs ++ y1 :: zs) = e.checksum then Except.ok (xs ++ y1 :: zs)
         else Except.error ZipError.checksumMismatch) := hstep
    rw [if_neg hchk] at hstep2
    exact ⟨Or.inl hstep2, fun _ => hstep2, fun out hout => by
      rw [hstep2] at hout
      exact Except.noConfusion hout⟩
  · -- deflate
    rw [hM] at hcomp
    simp only [compress] at hcomp
    rw [hM] at hstep
    cases xs with
    | nil =>
      simp only [List.nil_append] at hcomp hstep
      injection hcomp with h120 hdzs
      have hy1ne : y1 ≠ 120 := by
        rw [← h120] at hne
        exact hne
      rw [decompress_deflate_ne y1 hy1ne zs e.uncompressedSize] at hstep
      have hstep2 : Unzip.extract u e.name =
          Except.error ZipError.malformedArchive := hstep
      refine ⟨Or.inr hstep2, ?_, fun out hout => by
        rw [hstep2] at hout
        exact Except.noConfusion hout⟩
      intro hst
      exact Method.noConfusion hst
    | cons x xs2 =>
      injection hcomp with h1 h2
      subst h1
      have harr : (120 :: xs2) ++ y1 :: zs = 120 :: (xs2 ++ y1 :: zs) := rfl
      rw [harr] at hstep
      have hlen4 : (xs2 ++ y1 :: zs).length = e.uncompressedSize := by
        rw [hus, h2]
        simp
      rw [decompress_deflate_marker, if_pos hlen4] at hstep
      have hstep2 : Unzip.extract u e.name =
          (if checksum32 (xs2 ++ y1 :: zs) = e.checksum then
            Except.ok (xs2 ++ y1 :: zs)
           else Except.error ZipError.checksumMismatch) := hstep
      have hchk : ¬ checksum32 (xs2 ++ y1 :: zs) = e.checksum := by
        rw [hck, h2]
        exact checksum32_single_byte xs2 zs y1 y hy1 hy hne
      rw [if_neg hchk] at hstep2
      refine ⟨Or.inl hstep2, ?_, fun out hout => by
        rw [hstep2] at hout
        exact Except.noConfusion hout⟩
      intro hst
      exact Method.noConfusion hst

/-- Witness for C3 (amended): a concrete one-entry Store archive whose
single payload byte is corrupted from 7 to 8 extracts to a
ChecksumMismatch failure. -/
theorem extract_corrupted_witness :
    Unzip.extract
      { backing := .memory,
        bytes := ([] : List Nat) ++
          localHeader
            { name := "a", kind := .file, uncompressedSize := 1,
              compressedSize := 1, checksum := checksum32 [7], offset := 0,
              method := .store } ++
          (([] : List Nat) ++ 8 :: ([] : List Nat)) ++ ([] : List Nat),
        entries := [{ name := "a", kind := .file, uncompressedSize := 1,
                      compressedSize := 1, checksum := checksum32 [7], offset := 0,
                      method := .store }],
        finalized := true }
      "a" = .error .checksumMismatch :=
  (extract_corrupted
    { backing := .memory,
      bytes := ([] : List Nat) ++
        localHeader
          { name := "a", kind := .file, uncompressedSize := 1,
            compressedSize := 1, checksum := checksum32 [7], offset := 0,
            method := .store } ++
        (([] : List Nat) ++ 8 :: ([] : List Nat)) ++ ([] : List Nat),
      entries := [{ name := "a", kind := .file, uncompressedSize := 1,
                    compressedSize := 1, checksum := checksum32 [7], offset := 0,
                    method := .store }],
      finalized := true }
    { name := "a", kind := .file, uncompressedSize := 1,
      compressedSize := 1, checksum := checksum32 [7], offset := 0,
      method := .store }
    [7] [] [] [] [] 7 8
    (by decide) (by decide) (by unfold EntryData; decide)
    (by unfold BoundedEntry; decide) (by decide)
    (by decide) (by decide) (by decide) rfl rfl).2.1 rfl

/-- Counterexample for C3 as stated: in a finalized one-entry Deflate
archive, corrupting the single byte at offset 25 (the method's stream
marker inside the compressed payload) makes extract fail with
MalformedArchive, not ChecksumMismatch. -/
theorem extract_corrupted_counterexample :
    ((do
      let z ← Zip.add Zip.createMem "a" [5] .deflate
      let zf ← Zip.finalize z
      let u ← Unzip.createFromData ((Zip.getData zf).set 25 9)
      Unzip.extract u "a") : Except ZipError (List Nat)) =
        .error .malformedArchive ∧
    ((do
      let z ← Zip.add Zip.createMem "a" [5] .deflate
      let zf ← Zip.finalize z
      let u ← Unzip.createFromData ((Zip.getData zf).set 25 9)
      Unzip.extract u "a") : Except ZipError (List Nat)) ≠
        .error .checksumMismatch := by
  constructor
  · decide
  · decide

theorem natDigits_spec (n : Nat) :
    (∀ d ∈ natDigits n, d < 10) ∧ natDigits n ≠ [] ∧
    ∀ a : Nat, (natDigits n).foldl (fun acc d => acc * 10 + d) a =
      a * 10 ^ (natDigits n).length + n := by
  induction n using Nat.strong_induction_on with
  | _ n ih =>
    by_cases h : n < 10
    · rw [natDigits, if_pos h]
      refine ⟨by simpa using h, by simp, ?_⟩
      intro a
      simp [pow_one]
    · rw [natDigits, if_neg h]
      obtain ⟨ih1, ih2, ih3⟩ := ih (n / 10) (Nat.div_lt_self (by omega) (by omega))
      refine ⟨?_, by simp, ?_⟩
      · intro d hd
        rcases List.mem_append.mp hd with h1 | h1
        · exact ih1 d h1
        · have hd2 : d = n % 10 := by simpa using h1
          rw [hd2]
          exact Nat.mod_lt _ (by omega)
      · intro a
        rw [List.foldl_append, ih3 a]
        simp only [List.length_append, List.length_cons, List.length_nil,
          List.foldl_cons, List.foldl_nil]
        rw [pow_succ, ← mul_assoc]
        generalize a * 10 ^ (natDigits (n / 10)).length = t
        omega

theorem digitVal_digitChar (d : Nat) (h : d < 10) :
    digitVal (digitChar d) = some d := by
  interval_cases d <;> decide

theorem isBaseDigit_digitChar (d : Nat) (h : d < 10) :
    isBaseDigit 10 (digitChar d) = true := by
  interval_cases d <;> decide

theorem digitChar_ne_minus (d : Nat) (h : d < 10) :
    (digitChar d == '-') = false := by
  interval_cases d <;> decide

theorem takeWhile_all {α : Type} (p : α → Bool) (l : List α)
    (h : ∀ a ∈ l, p a = true) : l.takeWhile p = l := by
  induction l with
  | nil => rfl
  | cons a t ih =>
    rw [List.takeWhile_cons_of_pos (h a (List.mem_cons_self a t))]
    rw [ih (fun b hb => h b (List.mem_cons_of_mem a hb))]

theorem digitsVal_digitChars (m : Nat) :
    digitsVal 10 ((natDigits m).map digitChar) = (m : Int) := by
  obtain ⟨hlt, hne, hfold⟩ := natDigits_spec m
  unfold digitsVal
  rw [List.foldl_map]
  have haux : ∀ (ds : List Nat) (a : Nat), (∀ d ∈ ds, d < 10) →
      ds.foldl (fun (acc : Int) d =>
        acc * ((10 : Nat) : Int) + (((digitVal (digitChar d)).getD 0 : Nat) : Int))
        ((a : Nat) : Int) =
      ((ds.foldl (fun acc d => acc * 10 + d) a : Nat) : Int) := by
    intro ds
    induction ds with
    | nil => intro a hd; rfl
    | cons d t ih =>
      intro a hd
      simp only [List.foldl_cons]
      rw [digitVal_digitChar d (hd d (List.mem_cons_self d t))]
      have hstep : ((a : Nat) : Int) * ((10 : Nat) : Int) +
          (((Option.getD (some d) 0 : Nat)) : Int) = (((a * 10 + d : Nat)) : Int) := by
        simp only [Option.getD_some]
        push_cast
        ring
      rw [hstep]
      exact ih (a * 10 + d) (fun b hb => hd b (List.mem_cons_of_mem d hb))
  have h0 : (0 : Int) = ((0 : Nat) : Int) := by norm_num
  rw [h0, haux (natDigits m) 0 hlt, hfold 0]
  norm_num

theorem numFromString_eq (lo hi : Int) (base : Nat) (s : String) :
    numFromString lo hi base s =
      if (parsedDigits lo base s).isEmpty then .error "String is not a number"
      else if parsedVal lo base s < lo ∨ hi < parsedVal lo base s then
        .error "Number is too large to fit"
      else .ok (parsedVal lo base s) := rfl

theorem numToString_false (n : Int) :
    numToString false n =
      String.mk ((if n < 0 then ['-'] else []) ++ (natDigits n.natAbs).map digitChar) := rfl

theorem numFromString_toString_aux (lo hi n : Int) (h1 : lo ≤ n) (h2 : n ≤ hi) :
    numFromString lo hi 10 (numToString false n) = .ok n := by
  rw [numFromString_eq]
  by_cases hneg : n < 0
  · have hsigned : decide (lo < 0) = true := decide_eq_true (lt_of_le_of_lt h1 hneg)
    have htl : (numToString false n).toList = '-' :: (natDigits n.natAbs).map digitChar := by
      rw [numToString_false, if_pos hneg]
      rfl
    have hstrip : stripNeg (decide (lo < 0)) ((numToString false n).toList) =
        (true, (natDigits n.natAbs).map digitChar) := by
      rw [htl, hsigned]
      simp [stripNeg]
    obtain ⟨hlt, hnn, _⟩ := natDigits_spec n.natAbs
    have hdigs : parsedDigits lo 10 (numToString false n) =
        (natDigits n.natAbs).map digitChar := by
      unfold parsedDigits
      rw [hstrip]
      exact takeWhile_all _ _ (by
        intro c hc
        obtain ⟨d, hd, hcd⟩ := List.mem_map.mp hc
        rw [← hcd]
        exact isBaseDigit_digitChar d (hlt d hd))
    have hsign : parsedSign lo (numToString false n) = true := by
      unfold parsedSign
      rw [hstrip]
    have hvalv : parsedVal lo 10 (numToString false n) = n := by
      unfold parsedVal
      rw [hsign, hdigs]
      simp only [if_true]
      rw [digitsVal_digitChars]
      omega
    have hdne : (parsedDigits lo 10 (numToString false n)).isEmpty = false := by
      rw [hdigs]
      rw [List.isEmpty_eq_false]
      simp [hnn]
    simp only [hdne, Bool.false_eq_true, if_false, hvalv]
    rw [if_neg (by omega)]
  · have hge : 0 ≤ n := not_lt.mp hneg
    have htl : (numToString false n).toList = (natDigits n.natAbs).map digitChar := by
      rw [numToString_false, if_neg hneg]
      rfl
    obtain ⟨hlt, hnn, _⟩ := natDigits_spec n.natAbs
    cases hds : natDigits n.natAbs with
    | nil => exact absurd hds hnn
    | cons d0 ds0 =>
      have hd0 : d0 < 10 := hlt d0 (by rw [hds]; exact List.mem_cons_self d0 ds0)
      have hstrip : stripNeg (decide (lo < 0)) ((numToString false n).toList) =
          (false, (natDigits n.natAbs).map digitChar) := by
        rw [htl, hds]
        simp [stripNeg, List.map_cons, digitChar_ne_minus d0 hd0]
      have hdigs : parsedDigits lo 10 (numToString false n) =
          (natDigits n.natAbs).map digitChar := by
        unfold parsedDigits
        rw [hstrip]
        exact takeWhile_all _ _ (by
          intro c hc
          obtain ⟨d, hd, hcd⟩ := List.mem_map.mp hc
          rw [← hcd]
          exact isBaseDigit_digitChar d (hlt d hd))
      have hsign : parsedSign lo (numToString false n) = false := by
        unfold parsedSign
        rw [hstrip]
      have hvalv : parsedVal lo 10 (numToString false n) = n := by
        unfold parsedVal
        rw [hsign, hdigs]
        simp only [Bool.false_eq_true, if_false]
        rw [digitsVal_digitChars]
        omega
      have hdne : (parsedDigits lo 10 (numToString false n)).isEmpty = false := by
        rw [hdigs]
        rw [List.isEmpty_eq_false]
        simp [hnn]
      simp only [hdne, Bool.false_eq_true, if_false, hvalv]
      rw [if_neg (by omega)]

theorem isBaseDigit_minus (base : Nat) : isBaseDigit base '-' = false := rfl

theorem minus_not_digit (base : Nat) (c : Char) (h : isBaseDigit base c = true) :
    (c == '-') = false := by
  rcases Bool.eq_false_or_eq_true (c == '-') with hb | hb
  · have hc : c = '-' := eq_of_beq hb
    rw [hc, isBaseDigit_minus] at h
    exact absurd h (by simp)
  · exact hb

theorem takeWhile_boundary {α : Type} (p : α → Bool) (ds rest : List α)
    (h1 : ∀ a ∈ ds, p a = true)
    (h2 : rest = [] ∨ ∃ c t, rest = c :: t ∧ p c = false) :
    (ds ++ rest).takeWhile p = ds := by
  induction ds with
  | nil =>
    rcases h2 with h | ⟨c, t, hr, hc⟩
    · rw [h]
      rfl
    · rw [List.nil_append, hr, List.takeWhile_cons_of_neg (by simp [hc])]
  | cons a t ih =>
    rw [List.cons_append, List.takeWhile_cons_of_pos (h1 a (List.mem_cons_self a t))]
    rw [ih (fun b hb => h1 b (List.mem_cons_of_mem a hb))]

theorem dropWhile_head_false {α : Type} (p : α → Bool) (l : List α) (c : α) (t : List α)
    (h : l.dropWhile p = c :: t) : p c = false := by
  induction l with
  | nil => exact absurd h (by simp [List.dropWhile])
  | cons a l ih =>
    by_cases ha : p a = true
    · rw [List.dropWhile_cons_of_pos ha] at h
      exact ih h
    · rw [List.dropWhile_cons_of_neg ha] at h
      injection h with h1 h2
      rw [← h1]
      simpa using ha

theorem numeral_iff (lo : Int) (base : Nat) (s : String) (v : Int) :
    NumeralOf (decide (lo < 0)) base s v ↔
      (parsedDigits lo base s ≠ [] ∧ v = parsedVal lo base s) := by
  constructor
  · rintro ⟨neg, ds, rest, hsplit, hsgn, hne, hdig, hbound, hv⟩
    have hstrip : stripNeg (decide (lo < 0)) s.toList = (neg, ds ++ rest) := by
      cases neg with
      | true =>
        have hsigned := hsgn rfl
        rw [hsplit]
        simp [stripNeg, hsigned]
      | false =>
        obtain ⟨d, ds2, hds⟩ : ∃ d ds2, ds = d :: ds2 := by
          cases ds with
          | nil => exact absurd rfl hne
          | cons d ds2 => exact ⟨d, ds2, rfl⟩
        have hd : isBaseDigit base d = true :=
          hdig d (by rw [hds]; exact List.mem_cons_self _ _)
        have hdm : (d == '-') = false := minus_not_digit base d hd
        rw [hsplit, hds]
        simp [stripNeg, hdm]
    have hdigs : parsedDigits lo base s = ds := by
      unfold parsedDigits
      rw [hstrip]
      exact takeWhile_boundary _ ds rest hdig hbound
    have hsign2 : parsedSign lo s = neg := by
      unfold parsedSign
      rw [hstrip]
    refine ⟨by rw [hdigs]; exact hne, ?_⟩
    unfold parsedVal
    rw [hsign2, hdigs]
    exact hv
  · rintro ⟨hne, hv⟩
    cases htl : s.toList with
    | nil =>
      exfalso
      apply hne
      unfold parsedDigits
      rw [htl]
      rfl
    | cons c t =>
      by_cases hm : ((decide (lo < 0)) && (c == '-')) = true
      · have hstrip : stripNeg (decide (lo < 0)) s.toList = (true, t) := by
          rw [htl]
          simp only [stripNeg]
          rw [if_pos hm]
        rw [Bool.and_eq_true] at hm
        obtain ⟨hsg, hcm⟩ := hm
        have hc : c = '-' := eq_of_beq hcm
        have hdigs : parsedDigits lo base s = t.takeWhile (isBaseDigit base) := by
          unfold parsedDigits
          rw [hstrip]
        have hsign2 : parsedSign lo s = true := by
          unfold parsedSign
          rw [hstrip]
        refine ⟨true, t.takeWhile (isBaseDigit base), t.dropWhile (isBaseDigit base),
          ?_, fun _ => hsg, ?_, ?_, ?_, ?_⟩
        · rw [htl, hc]
          simp [List.takeWhile_append_dropWhile]
        · rw [← hdigs]
          exact hne
        · intro x hx
          exact List.mem_takeWhile_imp hx
        · cases hdw : t.dropWhile (isBaseDigit base) with
          | nil => exact Or.inl rfl
          | cons c2 t2 => exact Or.inr ⟨c2, t2, rfl, dropWhile_head_false _ _ _ _ hdw⟩
        · rw [hv]
          unfold parsedVal
          rw [hsign2, hdigs]
      · have hstrip : stripNeg (decide (lo < 0)) s.toList = (false, c :: t) := by
          rw [htl]
          simp only [stripNeg]
          rw [if_neg hm]
        have hdigs : parsedDigits lo base s = (c :: t).takeWhile (isBaseDigit base) := by
          unfold parsedDigits
          rw [hstrip]
        have hsign2 : parsedSign lo s = false := by
          unfold parsedSign
          rw [hstrip]
        refine ⟨false, (c :: t).takeWhile (isBaseDigit base),
          (c :: t).dropWhile (isBaseDigit base), ?_, by simp, ?_, ?_, ?_, ?_⟩
        · rw [htl]
          simp [List.takeWhile_append_dropWhile]
        · rw [← hdigs]
          exact hne
        · intro x hx
          exact List.mem_takeWhile_imp hx
        · cases hdw : (c :: t).dropWhile (isBaseDigit base) with
          | nil => exact Or.inl rfl
          | cons c2 t2 => exact Or.inr ⟨c2, t2, rfl, dropWhile_head_false _ _ _ _ hdw⟩
        · rw [hv]
          unfold parsedVal
          rw [hsign2, hdigs]

theorem numFromString_error_iff (lo hi : Int) (base : Nat) (s : String) :
    (∃ e, numFromString lo hi base s = .error e) ↔
      ((¬ ∃ v, NumeralOf (decide (lo < 0)) base s v) ∨
       (∃ v, NumeralOf (decide (lo < 0)) base s v ∧ (v < lo ∨ hi < v))) := by
  rw [numFromString_eq]
  by_cases hd : (parsedDigits lo base s).isEmpty = true
  · rw [if_pos hd]
    constructor
    · intro _
      left
      rintro ⟨v, hnum⟩
      have hch := (numeral_iff lo base s v).mp hnum
      exact hch.1 (List.isEmpty_iff.mp hd)
    · intro _
      exact ⟨_, rfl⟩
  · have hd2 : (parsedDigits lo base s).isEmpty = false := by simpa using hd
    have hne : parsedDigits lo base s ≠ [] := List.isEmpty_eq_false.mp hd2
    rw [if_neg (by simp [hd2])]
    by_cases hr : parsedVal lo base s < lo ∨ hi < parsedVal lo base s
    · rw [if_pos hr]
      constructor
      · intro _
        right
        exact ⟨parsedVal lo base s, (numeral_iff lo base s _).mpr ⟨hne, rfl⟩, hr⟩
      · intro _
        exact ⟨_, rfl⟩
    · rw [if_neg hr]
      constructor
      · rintro ⟨e, he⟩
        exact Except.noConfusion he
      · rintro (hnone | ⟨v, hnum, hvr⟩)
        · exact absurd ⟨parsedVal lo base s, (numeral_iff lo base s _).mpr ⟨hne, rfl⟩⟩ hnone
        · have hveq := ((numeral_iff lo base s v).mp hnum).2
          rw [hveq] at hvr
          exact absurd hvr hr

/-- C9 (amended): numFromString over an integral destination type with
representable range [lo, hi] (embedded from general.hpp lines 106-138)
inverts numToString (general.hpp lines 90-98, default precision 0, base 10)
on every in-range n of every integral type OUTSIDE the char family: the
parse succeeds and returns exactly n.  For the char-family integral types
(char, signed char / int8_t, unsigned char / uint8_t) the stream insertion
at line 96 writes a character rather than decimal digits, so the round trip
fails there (see the counterexample).  Moreover, for any string and base,
numFromString returns a failure result exactly when the string does not
begin with a numeral of the requested shape (an optional minus sign for
signed types, then a nonempty maximal digit run), or when the value of that
numeral lies outside [lo, hi]. -/
theorem num_roundTrip_and_errors (lo hi n : Int) (base : Nat) (s : String)
    (h1 : lo ≤ n) (h2 : n ≤ hi) :
    numFromString lo hi 10 (numToString false n) = .ok n ∧
    ((∃ e, numFromString lo hi base s = .error e) ↔
      ((¬ ∃ v, NumeralOf (decide (lo < 0)) base s v) ∨
       (∃ v, NumeralOf (decide (lo < 0)) base s v ∧ (v < lo ∨ hi < v)))) :=
  ⟨numFromString_toString_aux lo hi n h1 h2, numFromString_error_iff lo hi base s⟩

theorem num_roundTrip_and_errors_witness :
    ((-2147483648 : Int) ≤ -42 ∧ (-42 : Int) ≤ 2147483647) ∧
    numFromString (-2147483648) 2147483647 10 (numToString false (-42)) = .ok (-42) :=
  ⟨⟨by decide, by decide⟩,
   (num_roundTrip_and_errors (-2147483648) 2147483647 (-42) 10 "abc"
     (by decide) (by decide)).1⟩

theorem num_roundTrip_and_errors_counterexample :
    ((-128 : Int) ≤ 65 ∧ (65 : Int) ≤ 127) ∧
    numToString true 65 = "A" ∧
    numFromString (-128) 127 10 (numToString true 65) =
      .error "String is not a number" ∧
    numFromString (-128) 127 10 (numToString true 65) ≠ .ok 65 := by
  refine ⟨⟨by decide, by decide⟩, rfl, by decide, by decide⟩

end Geode
